import Mathlib

/-!
Verification of the synckit core against its specification.

The development shallowly embeds the Rust sources of `synckit-core`:
hash maps become association lists, machine integers become `Nat`
(no arithmetic in the embedded code can overflow a `u64` in the
scenarios considered, and the code performs no wrapping arithmetic),
fallible operations return explicit sum types, and `assert!`/
`unreachable!` panics are modelled as a distinguished failure value.
JSON payload values are abstracted to an arbitrary type with decidable
equality, since the embedded code only ever copies and compares them.
-/

namespace Synckit

/-- Rust's byte-wise string comparison `left < right`, on character
lists (all strings in this development are ASCII, for which codepoint
order coincides with Rust's byte order). -/
def lexLt : List Char → List Char → Bool
  | _, [] => false
  | [], _ :: _ => true
  | a :: l, b :: r =>
      if a.toNat < b.toNat then true
      else if b.toNat < a.toNat then false
      else lexLt l r

/-- Rust's `String` strict order, byte-wise lexicographic. -/
def strLt (a b : String) : Bool := lexLt a.data b.data

/-- Three-way comparison of strings, mirroring Rust's `Ord for String`. -/
def strCmp (a b : String) : Ordering :=
  if strLt a b then Ordering.lt
  else if strLt b a then Ordering.gt
  else Ordering.eq

/-- Three-way comparison of naturals, mirroring Rust's `Ord for u64`. -/
def natCmp (a b : Nat) : Ordering :=
  if a < b then Ordering.lt else if b < a then Ordering.gt else Ordering.eq

/-- Association-list lookup, modelling `HashMap::get`. -/
def lookupAL {α β : Type} [DecidableEq α] : List (α × β) → α → Option β
  | [], _ => none
  | (k, v) :: rest, key => if k = key then some v else lookupAL rest key

/-- Association-list insertion, modelling `HashMap::insert`: replaces the
binding if the key is present, otherwise adds it. -/
def insertAL {α β : Type} [DecidableEq α] : List (α × β) → α → β → List (α × β)
  | [], key, v => [(key, v)]
  | (k, w) :: rest, key, v =>
      if k = key then (key, v) :: rest else (k, w) :: insertAL rest key v

/-! ## Hybrid timestamps (`src/core/src/sync/mod.rs`) -/

/-- LWW timestamp: logical clock plus client id (`Timestamp` in
`sync/mod.rs`). -/
structure Timestamp where
  clock : Nat
  clientId : String
deriving DecidableEq, Repr

/-- `Timestamp::compare_lww`: compare clocks numerically, break ties by
client id lexicographically. -/
def Timestamp.compareLww (a b : Timestamp) : Ordering :=
  match natCmp a.clock b.clock with
  | Ordering.eq => strCmp a.clientId b.clientId
  | o => o

/-- `Timestamp::is_newer_than`. -/
def Timestamp.isNewerThan (a b : Timestamp) : Bool :=
  match a.compareLww b with
  | Ordering.gt => true
  | _ => false

/-- The `Ord` instance derived on the Rust `Timestamp` struct
(field-wise lexicographic: `clock`, then `client_id`), as used by
`apply_delta` and `merge_deltas` in `sync/delta.rs`. -/
def tsCmp (a b : Timestamp) : Ordering :=
  match natCmp a.clock b.clock with
  | Ordering.eq => strCmp a.clientId b.clientId
  | o => o

/-! ## Vector clocks (`src/core/src/sync/vector_clock.rs`) -/

/-- Vector clock: map from client id to logical clock value. -/
structure VectorClock where
  clocks : List (String × Nat)
deriving DecidableEq, Repr

namespace VectorClock

/-- `VectorClock::new`. -/
def new : VectorClock := ⟨[]⟩

/-- `VectorClock::get`: entry or 0. -/
def get (vc : VectorClock) (c : String) : Nat :=
  (lookupAL vc.clocks c).getD 0

/-- `VectorClock::tick`. -/
def tick (vc : VectorClock) (c : String) : VectorClock :=
  ⟨insertAL vc.clocks c (vc.get c + 1)⟩

/-- `VectorClock::update`. -/
def update (vc : VectorClock) (c : String) (v : Nat) : VectorClock :=
  ⟨insertAL vc.clocks c v⟩

/-- `VectorClock::merge`: pointwise maximum. -/
def mergeVC (a b : VectorClock) : VectorClock :=
  ⟨b.clocks.foldl
    (fun acc p => insertAL acc p.1 (max ((lookupAL acc p.1).getD 0) p.2))
    a.clocks⟩

/-- The union of the key sets of two clocks (the Rust code collects them
in a `HashSet`; duplicates are harmless because the flags below are
order- and multiplicity-insensitive). -/
def allClients (a b : VectorClock) : List String :=
  a.clocks.map Prod.fst ++ b.clocks.map Prod.fst

/-- `VectorClock::compare`: track `saw_less` and `saw_greater` over the
union of key sets; both or neither yield `Ordering::Equal`. -/
def compareVC (a b : VectorClock) : Ordering :=
  let clients := allClients a b
  let less := clients.any (fun c => decide (a.get c < b.get c))
  let greater := clients.any (fun c => decide (b.get c < a.get c))
  match less, greater with
  | true, false => Ordering.lt
  | false, true => Ordering.gt
  | false, false => Ordering.eq
  | true, true => Ordering.eq

/-- `VectorClock::is_concurrent`: both a strictly smaller and a strictly
greater entry exist. -/
def isConcurrent (a b : VectorClock) : Bool :=
  let clients := allClients a b
  (clients.any (fun c => decide (a.get c < b.get c))) &&
  (clients.any (fun c => decide (b.get c < a.get c)))

end VectorClock

/-! ## LWW document (`src/core/src/document.rs`)

The payload type of a field (`serde_json::Value` in the source) is
abstracted to a type parameter `V` with decidable equality: the embedded
code only ever clones and compares payload values. -/

/-- A single field with LWW metadata (`Field` in `document.rs`). -/
structure Field (V : Type) where
  value : V
  timestamp : Timestamp
deriving DecidableEq

/-- A document with field-level LWW conflict resolution. -/
structure Document (V : Type) where
  id : String
  fields : List (String × Field V)
  version : VectorClock
deriving DecidableEq

namespace Document

variable {V : Type} [DecidableEq V]

/-- `Document::new`. -/
def new (id : String) : Document V :=
  ⟨id, [], VectorClock.new⟩

/-- `Document::set_field`: constructs a timestamp from `(clock, client_id)`
and unconditionally installs `(value, ts)` at `path`. -/
def setField (d : Document V) (path : String) (v : V) (clock : Nat)
    (clientId : String) : Document V :=
  { d with fields := insertAL d.fields path ⟨v, ⟨clock, clientId⟩⟩ }

/-- `Document::get_field`. -/
def getField (d : Document V) (path : String) : Option V :=
  (lookupAL d.fields path).map Field.value

/-- `Document::merge_field`: LWW merge of one remote field; returns the
updated document and the "updated" flag. -/
def mergeField (d : Document V) (path : String) (remote : Field V) :
    Document V × Bool :=
  match lookupAL d.fields path with
  | some localField =>
      if remote.timestamp.isNewerThan localField.timestamp then
        ({ d with fields := insertAL d.fields path remote }, true)
      else
        (d, false)
  | none =>
      ({ d with fields := insertAL d.fields path remote }, true)

/-- `Document::merge`: merge every remote field, then merge vector clocks;
returns the count of updated fields.  The remote fields are taken in the
order of the embedding's association list (the Rust `HashMap` iterates in
an unspecified order; the per-path results proved below are
order-independent). -/
def mergeDoc (d : Document V) (remote : Document V) : Document V × Nat :=
  let p := remote.fields.foldl
    (fun (acc : Document V × Nat) pf =>
      let r := acc.1.mergeField pf.1 pf.2
      (r.1, if r.2 then acc.2 + 1 else acc.2))
    (d, 0)
  ({ p.1 with version := p.1.version.mergeVC remote.version }, p.2)

end Document

/-! ## Delta (`src/core/src/sync/delta.rs`) -/

/-- Changes between two document states (`Delta` in `sync/delta.rs`). -/
structure Delta (V : Type) where
  documentId : String
  fields : List (String × Field V)
  version : VectorClock
deriving DecidableEq

/-- `Delta::is_empty`. -/
def Delta.isEmpty {V : Type} (d : Delta V) : Bool :=
  d.fields.isEmpty

/-- `compute_delta`: include each field of `new` that is absent from `old`
or differs (value or timestamp) from `old`'s field at the same path.
Deleted fields are not tracked (the source explicitly leaves tombstones to
"a full implementation"). -/
def computeDelta {V : Type} [DecidableEq V] (old new : Document V) :
    Delta V :=
  { documentId := new.id
    fields := new.fields.filter (fun pf =>
      match lookupAL old.fields pf.1 with
      | some oldField => decide (oldField ≠ pf.2)
      | none => true)
    version := new.version }

/-- One per-field step of `apply_delta`: LWW comparison with the
`Ord`-derived timestamp order plus the (dead) client-id tie-break. -/
def applyDeltaField {V : Type} [DecidableEq V] (doc : Document V)
    (path : String) (deltaField : Field V) : Document V :=
  match lookupAL doc.fields path with
  | some localField =>
      match tsCmp deltaField.timestamp localField.timestamp with
      | Ordering.gt =>
          { doc with fields := insertAL doc.fields path deltaField }
      | Ordering.eq =>
          if strLt localField.timestamp.clientId deltaField.timestamp.clientId then
            { doc with fields := insertAL doc.fields path deltaField }
          else doc
      | Ordering.lt => doc
  | none => { doc with fields := insertAL doc.fields path deltaField }

/-- `apply_delta`: asserts the document ids match (modelled as `none` for
the panic), then merges every change per-field and merges the vector
clocks. -/
def applyDelta {V : Type} [DecidableEq V] (doc : Document V)
    (delta : Delta V) : Option (Document V) :=
  if doc.id = delta.documentId then
    let d := delta.fields.foldl (fun acc pf => applyDeltaField acc pf.1 pf.2) doc
    some { d with version := d.version.mergeVC delta.version }
  else
    none

/-! ## Error taxonomy (`src/core/src/error.rs`) -/

/-- The typed error kinds of `SyncError`.  Every variant carries a
message string in the source. -/
inductive SyncError where
  | documentNotFound (msg : String)
  | fieldNotFound (msg : String)
  | invalidTimestamp (msg : String)
  | serializationError (msg : String)
  | deserializationError (msg : String)
  | storageError (msg : String)
  | networkError (msg : String)
  | conflictError (msg : String)
  | invalidOperation (msg : String)
deriving DecidableEq, Repr

/-! ## OR-Set (`src/core/src/crdt/or_set.rs`) -/

/-- Unique identifier for one add operation. -/
structure UniqueTag where
  replicaId : String
  timestamp : Nat
  sequence : Nat
deriving DecidableEq, Repr

/-- Observed-Remove Set CRDT.  The element type is a parameter, as in the
Rust generic. -/
structure ORSet (T : Type) where
  replicaId : String
  elements : List (T × List UniqueTag)
  removedTags : List UniqueTag
  sequence : Nat
deriving DecidableEq

/-- HashSet-style insertion of a tag (no duplicates; position in the list
carries no meaning). -/
def insertTag (tags : List UniqueTag) (t : UniqueTag) : List UniqueTag :=
  if t ∈ tags then tags else tags ++ [t]

namespace ORSet

variable {T : Type} [DecidableEq T]

/-- `ORSet::new`. -/
def new (replicaId : String) : ORSet T :=
  ⟨replicaId, [], [], 0⟩

/-- `ORSet::add`.  The wall-clock microsecond reading
(`SystemTime::now()` in the source) is an input of the embedding. -/
def add (s : ORSet T) (e : T) (nowMicros : Nat) : ORSet T :=
  let seq := s.sequence + 1
  let tag : UniqueTag := ⟨s.replicaId, nowMicros, seq⟩
  { s with
    sequence := seq
    elements := insertAL s.elements e
      (insertTag ((lookupAL s.elements e).getD []) tag) }

/-- `ORSet::remove`: move every currently observed tag of `e` into
`removed_tags`; no-op when `e` is absent. -/
def remove (s : ORSet T) (e : T) : ORSet T :=
  match lookupAL s.elements e with
  | some tags => { s with removedTags := tags.foldl insertTag s.removedTags }
  | none => s

/-- `ORSet::contains`: true iff some tag of `e` is not removed. -/
def contains (s : ORSet T) (e : T) : Bool :=
  match lookupAL s.elements e with
  | some tags => tags.any (fun t => decide (t ∉ s.removedTags))
  | none => false

/-- `ORSet::merge`: per-element union of tags plus union of removed
tags. -/
def mergeOR (s other : ORSet T) : ORSet T :=
  { s with
    elements := other.elements.foldl
      (fun acc p => insertAL acc p.1 (p.2.foldl insertTag ((lookupAL acc p.1).getD [])))
      s.elements
    removedTags := other.removedTags.foldl insertTag s.removedTags }

end ORSet

/-! ## Fractional index (`src/core/src/crdt/fractional_index.rs`)

Positions are byte strings, embedded as lists of characters (all
characters arising in the algorithm are ASCII, for which Rust's byte-wise
string order coincides with codepoint order). -/

/-- The digit alphabet `0-9A-Za-z` (the `DIGITS` constant). -/
def DIGITS : List Char :=
  "0123456789ABCDEFGHIJKLMNOPQRSTUVWXYZabcdefghijklmnopqrstuvwxyz".toList

/-- `digit_to_value` composed with the `char as u8` cast
(`char_to_value` in the source): digits map to 0-61, anything else to
0. -/
def digitToValue (c : Char) : Nat :=
  let d := c.toNat % 256
  if 48 ≤ d ∧ d ≤ 57 then d - 48
  else if 65 ≤ d ∧ d ≤ 90 then d - 65 + 10
  else if 97 ≤ d ∧ d ≤ 122 then d - 97 + 36
  else 0

/-- `value_to_char`: index into `DIGITS` (the source indexes the array
directly; every value produced by the algorithm is below 62, so the
default of the total embedding is never used). -/
def valueToChar (v : Nat) : Char :=
  DIGITS.getD v '0'

/-- Value of the current position of the left walk (missing characters
read as 0, the smallest digit). -/
def headL : List Char → Nat
  | [] => 0
  | c :: _ => digitToValue c

/-- Value of the current position of the right walk (missing characters
read as `BASE` = 62, the one-past-largest sentinel). -/
def headR : List Char → Nat
  | [] => 62
  | c :: _ => digitToValue c

/-- The loop of `compute_midpoint`.  `fuel` counts the advances still
allowed before the depth cutoff (`if i > 20` in the source; the loop
starts at `i = 0`, so 20 advances are free and the 21st forces the mid
digit).  `none` models the `unreachable!` panic of the
`left_digit > right_digit` arm. -/
def midGo (l r : List Char) (fuel : Nat) : Option (List Char) :=
  if headL l < headR r then
    if headL l + 1 < headR r then
      some [valueToChar ((headL l + headR r) / 2)]
    else
      match fuel with
      | 0 => some [valueToChar (headL l), valueToChar 31]
      | f + 1 =>
          (midGo l.tail r.tail f).map (fun rest => valueToChar (headL l) :: rest)
  else if headR r < headL l then
    none
  else
    match fuel with
    | 0 => some [valueToChar (headL l), valueToChar 31]
    | f + 1 =>
        (midGo l.tail r.tail f).map (fun rest => valueToChar (headL l) :: rest)

/-- Outcome of `FractionalIndex::between`: either a fresh position or a
panic with the given message (`between` has no `Result` in its signature;
both its `assert!` and the `unreachable!` inside `compute_midpoint`
abort). -/
inductive BetweenResult where
  | ok (pos : List Char)
  | fail (msg : String)
deriving DecidableEq, Repr

/-- `FractionalIndex::first`. -/
def firstIdx : List Char := "a0".toList

/-- `FractionalIndex::last`: ten `z`s. -/
def lastIdx : List Char := List.replicate 10 'z'

/-- `FractionalIndex::between`: assert `left < right` byte-wise (panic
otherwise), then compute the midpoint. -/
def between (l r : List Char) : BetweenResult :=
  if lexLt l r then
    match midGo l r 20 with
    | some m => BetweenResult.ok m
    | none => BetweenResult.fail "left should be < right"
  else
    BetweenResult.fail "Left position must be less than right position"

/-- `FractionalIndex::after`. -/
def afterIdx (p : List Char) : BetweenResult := between p lastIdx

/-- `FractionalIndex::before`. -/
def beforeIdx (p : List Char) : BetweenResult := between firstIdx p

/-- Membership in the base-62 digit alphabet. -/
def isBase62 (c : Char) : Bool := decide (c ∈ DIGITS)

/-- The iterated-insertion scenario of the dense-ordering property:
`count` times, insert between the original left endpoint and the most
recently produced key, checking strict order at every step. -/
def denseChainOK : Nat → List Char → List Char → Bool
  | 0, _, _ => true
  | n + 1, left, cur =>
      match between left cur with
      | BetweenResult.ok m => lexLt left m && lexLt m cur && denseChainOK n left m
      | BetweenResult.fail _ => false

/-- Scenario S5 of the spec: start from `first()` and `after(first())`
and perform 100 consecutive insertions inside the interval. -/
def scenarioS5 : Bool :=
  match afterIdx firstIdx with
  | BetweenResult.ok p2 => denseChainOK 100 firstIdx p2
  | BetweenResult.fail _ => false

/-! ## Text CRDT (`src/core/src/crdt/text/text.rs`)

The files `crdt/text/id.rs` and `crdt/text/item.rs` are declared by
`crdt/text/mod.rs` but are not part of the available sources; `ItemId`
and `Item` below are therefore modelled from the specification (§3 data
model, §4.6 block coalescing).  `text.rs` itself is embedded from the
source. -/

/-- Modelled from the spec: `ItemId = (replica: u64, counter: u64)`
(the file `crdt/text/id.rs` is missing from the sources). -/
structure ItemId where
  client : Nat
  counter : Nat
deriving DecidableEq, Repr

/-- Modelled from the spec: ItemId comparison is `(replica, counter)`
lexicographic. -/
def ItemId.idLt (a b : ItemId) : Bool :=
  if a.client < b.client then true
  else if b.client < a.client then false
  else decide (a.counter < b.counter)

/-- Modelled from the spec: a text item
`(id, content, left, right, deleted)` (the file `crdt/text/item.rs` is
missing from the sources). -/
structure Item where
  id : ItemId
  content : List Char
  left : Option ItemId
  right : Option ItemId
  deleted : Bool
deriving DecidableEq, Repr

/-- Modelled from the spec: `Item::new_char` builds a one-character,
non-deleted item with the given origins. -/
def Item.newChar (id : ItemId) (ch : Char) (left right : Option ItemId) : Item :=
  ⟨id, [ch], left, right, false⟩

/-- Modelled from the spec (§4.6 block coalescing): two adjacent items
may fuse when they come from the same replica, their counters are
consecutive through the content length, the second one's left origin is
the first item and both share a right origin and deletion status. -/
def Item.canMergeWith (a b : Item) : Bool :=
  decide (a.id.client = b.id.client) &&
  decide (b.id.counter = a.id.counter + a.content.length) &&
  decide (b.left = some a.id) &&
  decide (b.right = a.right) &&
  decide (a.deleted = b.deleted)

/-- Modelled from the spec (§4.6): the fused item keeps the first item's
id and left origin, concatenates content, and takes the second item's
right origin. -/
def Item.mergeItem (a b : Item) : Item :=
  { a with content := a.content ++ b.content, right := b.right }

/-- Association-list removal, modelling `HashMap::remove`. -/
def removeAL {α β : Type} [DecidableEq α] : List (α × β) → α → List (α × β)
  | [], _ => []
  | (k, v) :: rest, key => if k = key then rest else (k, v) :: removeAL rest key

/-- The YATA text document (`Text` in `text.rs`). -/
structure Text where
  clientId : Nat
  clock : Nat
  items : List (ItemId × Item)
  sequence : List ItemId
deriving DecidableEq, Repr

namespace Text

/-- `Text::new`. -/
def new (clientId : Nat) : Text :=
  ⟨clientId, 0, [], []⟩

/-- The inner scan of `get_origins_at_position` looking for the next
visible item after the insertion point. -/
def findRightOrigin (t : Text) : List ItemId → Option ItemId
  | [] => none
  | id :: rest =>
      match lookupAL t.items id with
      | some item =>
          if item.deleted then findRightOrigin t rest else some id
      | none => findRightOrigin t rest

/-- The main loop of `get_origins_at_position`: walk the sequence,
accumulating visible length, until the insertion point is met; `none`
when the loop falls through. -/
def originsGo (t : Text) (position : Nat) :
    List ItemId → Nat → Option (Option ItemId × Option ItemId)
  | [], _ => none
  | id :: rest, visiblePos =>
      match lookupAL t.items id with
      | some item =>
          if item.deleted then originsGo t position rest visiblePos
          else
            let itemLen := item.content.length
            if position ≤ visiblePos + itemLen then
              some (some id, findRightOrigin t rest)
            else
              originsGo t position rest (visiblePos + itemLen)
      | none => originsGo t position rest visiblePos

/-- `Text::get_origins_at_position`. -/
def getOriginsAtPosition (t : Text) (position : Nat) :
    Option ItemId × Option ItemId :=
  if position = 0 then
    (none, t.sequence.head?)
  else
    match originsGo t position t.sequence 0 with
    | some p => p
    | none => (t.sequence.getLast?, none)

/-- The scan loop of `integrate_item` when the new item has a left
origin: runs over the sequence suffix after the left origin. -/
def integrateGoSome (t : Text) (itemId leftId : ItemId)
    (right : Option ItemId) : List ItemId → Nat → Nat
  | [], pos => pos
  | currentId :: rest, pos =>
      if some currentId = right then pos
      else
        match lookupAL t.items currentId with
        | some currentItem =>
            if currentItem.left = some leftId then
              if itemId.idLt currentId then pos
              else integrateGoSome t itemId leftId right rest (pos + 1)
            else
              if right.isSome then
                match currentItem.left with
                | some currentLeft =>
                    if leftId.idLt currentLeft then pos
                    else integrateGoSome t itemId leftId right rest (pos + 1)
                | none => integrateGoSome t itemId leftId right rest (pos + 1)
              else integrateGoSome t itemId leftId right rest (pos + 1)
        | none => pos

/-- The scan loop of `integrate_item` when the new item has no left
origin: runs over the whole sequence from position 0. -/
def integrateGoNone (t : Text) (itemId : ItemId)
    (right : Option ItemId) : List ItemId → Nat → Nat
  | [], pos => pos
  | currentId :: rest, pos =>
      if some currentId = right then pos
      else
        match lookupAL t.items currentId with
        | some currentItem =>
            match currentItem.left with
            | none =>
                if itemId.idLt currentId then pos
                else integrateGoNone t itemId right rest (pos + 1)
            | some _ => pos
        | none => pos

/-- `Vec::iter().position` on the sequence. -/
def findIdx : List ItemId → ItemId → Option Nat
  | [], _ => none
  | y :: rest, x => if y = x then some 0 else (findIdx rest x).map (· + 1)

/-- `Vec::insert`. -/
def insertAt {α : Type} (l : List α) (n : Nat) (a : α) : List α :=
  l.take n ++ a :: l.drop n

/-- `Text::integrate_item`.  The source `expect`s the item to exist in
the store; every caller inserts it first, so the missing-item branch
(a panic in the source) is modelled as a no-op. -/
def integrateItem (t : Text) (itemId : ItemId) : Text :=
  match lookupAL t.items itemId with
  | none => t
  | some item =>
      let insertPos :=
        match item.left with
        | some leftId =>
            match findIdx t.sequence leftId with
            | some leftPos =>
                integrateGoSome t itemId leftId item.right
                  (t.sequence.drop (leftPos + 1)) (leftPos + 1)
            | none => t.sequence.length
        | none => integrateGoNone t itemId item.right t.sequence 0
      { t with sequence := insertAt t.sequence insertPos itemId }

/-- `Text::integrate_items`. -/
def integrateItems (t : Text) (ids : List ItemId) : Text :=
  ids.foldl integrateItem t

/-- `Text::merge_blocks`: fuse adjacent mergeable blocks; on a fuse the
index is not advanced, so the fused block is re-checked against the next
one.  The first argument bounds the number of loop iterations (each
iteration either moves one id past the cursor or shortens the sequence,
so `2 * length + 1` always completes the walk); the Rust loop needs no
such bound, and the fuel-out arm is never reached from `mergeBlocks`. -/
def mergeBlocksGo : Nat → List (ItemId × Item) → List ItemId → List ItemId →
    List (ItemId × Item) × List ItemId
  | 0, items, done, rest => (items, done ++ rest)
  | fuel + 1, items, done, rest =>
      match rest with
      | a :: b :: tail =>
          match lookupAL items a, lookupAL items b with
          | some ia, some ib =>
              if ia.canMergeWith ib then
                mergeBlocksGo fuel (removeAL (insertAL items a (ia.mergeItem ib)) b)
                  done (a :: tail)
              else
                mergeBlocksGo fuel items (done ++ [a]) (b :: tail)
          | _, _ => mergeBlocksGo fuel items (done ++ [a]) (b :: tail)
      | _ => (items, done ++ rest)

/-- `Text::merge_blocks`, packaged on the document. -/
def mergeBlocks (t : Text) : Text :=
  let p := mergeBlocksGo (2 * t.sequence.length + 1) t.items [] t.sequence
  { t with items := p.1, sequence := p.2 }

/-- `Text::insert`: compute the shared origins, allocate one item per
character with consecutive ids, integrate them in allocation order, and
coalesce. -/
def insertText (t : Text) (position : Nat) (text : List Char) : Text :=
  let origins := t.getOriginsAtPosition position
  let t1 := text.foldl
    (fun acc ch =>
      let id : ItemId := ⟨acc.clientId, acc.clock⟩
      { acc with
        clock := acc.clock + 1
        items := insertAL acc.items id (Item.newChar id ch origins.1 origins.2) })
    t
  let createdIds := (List.range text.length).map
    (fun k => ItemId.mk t.clientId (t.clock + k))
  mergeBlocks (integrateItems t1 createdIds)

/-- One step of the item-collection loop of `Text::merge`: the
accumulator carries the local item store and the ids queued for
integration. -/
def mergeStep (acc : List (ItemId × Item) × List ItemId)
    (entry : ItemId × Item) : List (ItemId × Item) × List ItemId :=
  match lookupAL acc.1 entry.1 with
  | some myItem =>
      if entry.2.deleted && !myItem.deleted then
        (insertAL acc.1 entry.1 { myItem with deleted := true }, acc.2)
      else (acc.1, acc.2)
  | none => (insertAL acc.1 entry.1 entry.2, acc.2 ++ [entry.1])

/-- `Text::merge`: lift the clock, copy unseen remote items (and import
remote deletions), integrate the queued items, and coalesce.  The Rust
`HashMap` iterates `other.items` in an unspecified order; the embedding
iterates the association list in its list order, and the scenario
theorems below quantify over all permutations of that order. -/
def mergeText (t other : Text) : Text :=
  let clock := if other.clock > t.clock then other.clock else t.clock
  let p := other.items.foldl mergeStep (t.items, [])
  let t1 := { t with clock := clock, items := p.1 }
  mergeBlocks (integrateItems t1 p.2)

/-- The `Display` rendering: concatenate the content of every
non-deleted item in sequence order. -/
def render (t : Text) : List Char :=
  t.sequence.foldl
    (fun acc id =>
      match lookupAL t.items id with
      | some item => if item.deleted then acc else acc ++ item.content
      | none => acc)
    []

end Text

/-! ### Scenario S3 (claim C6)

`text1 = Text(1)` inserts `"Hello"`; `text2 = Text(2)` is brought up to
date by merging `text1`; concurrently `text1.insert(0, "A")` and
`text2.insert(5, "B")`; then `text1.merge(text2)` and
`text2.merge(text1)`.  The lists `o1`, `o2`, `o3` are the orders in
which the three merges encounter the remote item store (the Rust
`HashMap` iteration order). -/

/-- `text1` after `insert(0, "Hello")`. -/
def textOneBase : Text := (Text.new 1).insertText 0 "Hello".toList

/-- `text2` after merging `text1`, with the remote store iterated in
order `o1`. -/
def scenarioText2a (o1 : List (ItemId × Item)) : Text :=
  (Text.new 2).mergeText { textOneBase with items := o1 }

/-- `text1` after its concurrent `insert(0, "A")`. -/
def textOneB : Text := textOneBase.insertText 0 "A".toList

/-- `text2` after its concurrent `insert(5, "B")`. -/
def scenarioText2b (o1 : List (ItemId × Item)) : Text :=
  (scenarioText2a o1).insertText 5 "B".toList

/-- `text1` after `text1.merge(text2)`, the remote store iterated in
order `o2`. -/
def scenarioText1Final (o1 o2 : List (ItemId × Item)) : Text :=
  textOneB.mergeText { scenarioText2b o1 with items := o2 }

/-- `text2` after `text2.merge(text1)`, the remote store iterated in
order `o3`. -/
def scenarioText2Final (o1 o2 o3 : List (ItemId × Item)) : Text :=
  (scenarioText2b o1).mergeText { scenarioText1Final o1 o2 with items := o3 }

/-- All ways of inserting an element into a list (an executable
permutation enumerator; the library `List.permutations` is not
kernel-computable). -/
def insertsOf {α : Type} (x : α) : List α → List (List α)
  | [] => [[x]]
  | y :: ys => (x :: y :: ys) :: (insertsOf x ys).map (fun z => y :: z)

/-- All permutations of a list, executably. -/
def permsOf {α : Type} : List α → List (List α)
  | [] => [[]]
  | x :: xs => (permsOf xs).bind (insertsOf x)

/-! # Lemmas and claim theorems -/

section ALLemmas

variable {α β : Type} [DecidableEq α]

theorem lookupAL_insertAL (l : List (α × β)) (k : α) (v : β) (k' : α) :
    lookupAL (insertAL l k v) k' = if k = k' then some v else lookupAL l k' := by
  induction l with
  | nil => by_cases h : k = k' <;> simp [insertAL, lookupAL, h]
  | cons hd tl ih =>
      obtain ⟨a, b⟩ := hd
      by_cases hak : a = k
      · subst hak
        by_cases h : a = k' <;> simp [insertAL, lookupAL, h]
      · by_cases h : a = k'
        · subst h
          have : ¬ k = a := fun hh => hak hh.symm
          simp [insertAL, lookupAL, hak, this]
        · simp [insertAL, lookupAL, hak, h, ih]

theorem lookupAL_mem_keys (l : List (α × β)) (k : α) (v : β)
    (h : lookupAL l k = some v) : k ∈ l.map Prod.fst := by
  induction l with
  | nil => simp [lookupAL] at h
  | cons hd tl ih =>
      obtain ⟨a, b⟩ := hd
      by_cases hak : a = k
      · simp [hak]
      · simp only [lookupAL, if_neg hak] at h
        simpa using Or.inr (ih h)

theorem lookupAL_eq_none_iff (l : List (α × β)) (k : α) :
    lookupAL l k = none ↔ k ∉ l.map Prod.fst := by
  induction l with
  | nil => simp [lookupAL]
  | cons hd tl ih =>
      obtain ⟨a, b⟩ := hd
      by_cases hak : a = k
      · simp [lookupAL, hak]
      · rw [List.map_cons]
        simp only [lookupAL, if_neg hak, ih, List.mem_cons]
        constructor
        · intro h hc
          rcases hc with hc | hc
          · exact hak hc.symm
          · exact h hc
        · exact fun h hc => h (Or.inr hc)

theorem mem_of_lookupAL (l : List (α × β)) (k : α) (v : β)
    (h : lookupAL l k = some v) : (k, v) ∈ l := by
  induction l with
  | nil => simp [lookupAL] at h
  | cons hd tl ih =>
      obtain ⟨a, b⟩ := hd
      by_cases hak : a = k
      · subst hak
        have hb : lookupAL ((a, b) :: tl) a = some b := by simp [lookupAL]
        rw [hb] at h
        obtain rfl := Option.some.inj h
        exact List.mem_cons_self _ _
      · simp only [lookupAL, if_neg hak] at h
        exact List.mem_cons_of_mem _ (ih h)

theorem lookupAL_of_mem_nodup (l : List (α × β)) (k : α) (v : β)
    (hnd : (l.map Prod.fst).Nodup) (h : (k, v) ∈ l) :
    lookupAL l k = some v := by
  induction l with
  | nil => simp at h
  | cons hd tl ih =>
      obtain ⟨a, b⟩ := hd
      simp only [List.map_cons, List.nodup_cons] at hnd
      rcases List.mem_cons.mp h with h1 | h1
      · injection h1 with h1a h1b
        subst h1a
        subst h1b
        simp [lookupAL]
      · have hmem : k ∈ tl.map Prod.fst :=
          List.mem_map.mpr ⟨(k, v), h1, rfl⟩
        have hak : a ≠ k := by
          intro he
          exact hnd.1 (he ▸ hmem)
        simp [lookupAL, hak, ih hnd.2 h1]

theorem lookupAL_perm {m m' : List (α × β)}
    (hnd : (m.map Prod.fst).Nodup) (hp : m.Perm m') (k : α) :
    lookupAL m k = lookupAL m' k := by
  have hnd' : (m'.map Prod.fst).Nodup := ((hp.map Prod.fst).nodup_iff).mp hnd
  rcases h : lookupAL m k with _ | v
  · rw [lookupAL_eq_none_iff] at h
    rw [eq_comm, lookupAL_eq_none_iff]
    exact fun hmem => h (((hp.map Prod.fst).mem_iff).mpr hmem)
  · have := mem_of_lookupAL m k v h
    exact (lookupAL_of_mem_nodup m' k v hnd' (hp.mem_iff.mp this)).symm

theorem insertAL_append_of_none (l : List (α × β)) (k : α) (v : β)
    (h : lookupAL l k = none) : insertAL l k v = l ++ [(k, v)] := by
  induction l with
  | nil => simp [insertAL]
  | cons hd tl ih =>
      obtain ⟨a, b⟩ := hd
      by_cases hak : a = k
      · simp [lookupAL, hak] at h
      · simp only [lookupAL, if_neg hak] at h
        simp [insertAL, hak, ih h]

theorem keys_insertAL (l : List (α × β)) (k : α) (v : β) :
    (insertAL l k v).map Prod.fst =
      if k ∈ l.map Prod.fst then l.map Prod.fst
      else l.map Prod.fst ++ [k] := by
  induction l with
  | nil => simp [insertAL]
  | cons hd tl ih =>
      obtain ⟨a, b⟩ := hd
      by_cases hak : a = k
      · subst hak
        simp [insertAL]
      · have hka : ¬ k = a := fun h => hak h.symm
        have h1 : insertAL ((a, b) :: tl) k v = (a, b) :: insertAL tl k v := by
          simp [insertAL, hak]
        rw [h1, List.map_cons, ih, List.map_cons]
        by_cases hk : k ∈ tl.map Prod.fst
        · have : k ∈ a :: tl.map Prod.fst := List.mem_cons_of_mem _ hk
          simp [hk, this]
        · have : k ∉ a :: tl.map Prod.fst := by
            intro hc
            rcases List.mem_cons.mp hc with hc | hc
            · exact hka hc
            · exact hk hc
          simp [hk, this]

theorem nodup_keys_insertAL (l : List (α × β)) (k : α) (v : β)
    (hnd : (l.map Prod.fst).Nodup) :
    ((insertAL l k v).map Prod.fst).Nodup := by
  rw [keys_insertAL]
  by_cases hk : k ∈ l.map Prod.fst
  · simpa [hk]
  · simpa [hk, List.nodup_append] using hnd

theorem keys_removeAL_sublist (l : List (α × β)) (k : α) :
    ((removeAL l k).map Prod.fst).Sublist (l.map Prod.fst) := by
  induction l with
  | nil => simp [removeAL]
  | cons hd tl ih =>
      obtain ⟨a, b⟩ := hd
      by_cases hak : a = k
      · rw [show removeAL ((a, b) :: tl) k = tl by simp [removeAL, hak],
           List.map_cons]
        exact List.sublist_cons_self _ _
      · simpa [removeAL, hak] using ih.cons₂ a

theorem nodup_keys_removeAL (l : List (α × β)) (k : α)
    (hnd : (l.map Prod.fst).Nodup) :
    ((removeAL l k).map Prod.fst).Nodup :=
  (keys_removeAL_sublist l k).nodup hnd

theorem lookupAL_removeAL (l : List (α × β)) (k k' : α)
    (hnd : (l.map Prod.fst).Nodup) :
    lookupAL (removeAL l k) k' =
      if k = k' then none else lookupAL l k' := by
  induction l with
  | nil => by_cases h : k = k' <;> simp [removeAL, lookupAL, h]
  | cons hd tl ih =>
      obtain ⟨a, b⟩ := hd
      simp only [List.map_cons, List.nodup_cons] at hnd
      by_cases hak : a = k
      · subst hak
        by_cases h : a = k'
        · subst h
          simp [removeAL, (lookupAL_eq_none_iff tl a).mpr hnd.1]
        · simp [removeAL, lookupAL, h]
      · by_cases h : k = k'
        · subst h
          have hak' : a ≠ k := hak
          simp [removeAL, lookupAL, hak, hak', ih hnd.2]
        · by_cases hak2 : a = k'
          · subst hak2
            simp [removeAL, lookupAL, hak, ih hnd.2, h]
          · simp [removeAL, lookupAL, hak, hak2, ih hnd.2, h]

theorem lookupAL_filter (l : List (α × β)) (p : α × β → Bool) (k : α)
    (hnd : (l.map Prod.fst).Nodup) :
    lookupAL (l.filter p) k =
      match lookupAL l k with
      | some v => if p (k, v) then some v else none
      | none => none := by
  induction l with
  | nil => simp [lookupAL]
  | cons hd tl ih =>
      obtain ⟨a, b⟩ := hd
      simp only [List.map_cons, List.nodup_cons] at hnd
      by_cases hak : a = k
      · subst hak
        have htl : lookupAL tl a = none := (lookupAL_eq_none_iff tl a).mpr hnd.1
        have hftl : lookupAL (tl.filter p) a = none := by
          rw [ih hnd.2, htl]
        by_cases hp : p (a, b)
        · simp [List.filter_cons, hp, lookupAL]
        · simp [List.filter_cons, hp, lookupAL, hftl]
      · by_cases hp : p (a, b)
        · simp [List.filter_cons, hp, lookupAL, hak, ih hnd.2]
        · simp [List.filter_cons, hp, lookupAL, hak, ih hnd.2]

end ALLemmas

/-! ### Vector clock comparison (claim C3) -/

theorem VectorClock.get_lt_mem_allClients (a b : VectorClock) (c : String)
    (h : a.get c < b.get c) : c ∈ VectorClock.allClients a b := by
  rcases hb : lookupAL b.clocks c with _ | v
  · have : b.get c = 0 := by simp [VectorClock.get, hb]
    omega
  · exact List.mem_append.mpr (Or.inr (lookupAL_mem_keys _ _ _ hb))

theorem VectorClock.isConcurrent_iff (a b : VectorClock) :
    a.isConcurrent b = true ↔
      (∃ c, a.get c < b.get c) ∧ (∃ c, b.get c < a.get c) := by
  constructor
  · intro h
    simp only [VectorClock.isConcurrent, Bool.and_eq_true, List.any_eq_true,
      decide_eq_true_eq] at h
    exact ⟨⟨h.1.choose, h.1.choose_spec.2⟩, ⟨h.2.choose, h.2.choose_spec.2⟩⟩
  · rintro ⟨⟨c1, h1⟩, ⟨c2, h2⟩⟩
    simp only [VectorClock.isConcurrent, Bool.and_eq_true, List.any_eq_true,
      decide_eq_true_eq]
    refine ⟨⟨c1, VectorClock.get_lt_mem_allClients a b c1 h1, h1⟩, ⟨c2, ?_, h2⟩⟩
    have := VectorClock.get_lt_mem_allClients b a c2 h2
    simpa [VectorClock.allClients, or_comm] using this

/-- C3 counterexample: the concurrent pair `{c1 ↦ 1}` / `{c2 ↦ 1}` and
the identical pair `{c1 ↦ 1}` / `{c1 ↦ 1}` both make `compare` return
`Ordering::Equal`, so the result of `compare` on a concurrent pair is
not distinguishable from its result on identical clocks; only the
separate `is_concurrent` tells them apart. -/
theorem c3_counterexample :
    VectorClock.compareVC ⟨[("c1", 1)]⟩ ⟨[("c2", 1)]⟩ = Ordering.eq ∧
    VectorClock.isConcurrent ⟨[("c1", 1)]⟩ ⟨[("c2", 1)]⟩ = true ∧
    VectorClock.compareVC ⟨[("c1", 1)]⟩ ⟨[("c1", 1)]⟩ = Ordering.eq ∧
    VectorClock.isConcurrent ⟨[("c1", 1)]⟩ ⟨[("c1", 1)]⟩ = false := by
  decide

/-- C3 (amended): `compare` returns one of the three `Ordering` values
`{Less, Greater, Equal}`, fusing identical and concurrent clocks into
the same `Equal` result; the distinction is available only through the
separate `is_concurrent`, which returns true exactly when some entry is
strictly smaller and some entry strictly greater. -/
theorem c3_compare_fused (a b : VectorClock) :
    (VectorClock.compareVC a b = Ordering.lt ∨
     VectorClock.compareVC a b = Ordering.gt ∨
     VectorClock.compareVC a b = Ordering.eq) ∧
    (a.isConcurrent b = true ↔
      (∃ c, a.get c < b.get c) ∧ (∃ c, b.get c < a.get c)) ∧
    (a.isConcurrent b = true → VectorClock.compareVC a b = Ordering.eq) := by
  refine ⟨?_, VectorClock.isConcurrent_iff a b, ?_⟩
  · cases h : VectorClock.compareVC a b
    · exact Or.inl rfl
    · exact Or.inr (Or.inr rfl)
    · exact Or.inr (Or.inl rfl)
  · intro h
    simp only [VectorClock.isConcurrent, Bool.and_eq_true] at h
    simp only [VectorClock.compareVC]
    rw [h.1, h.2]

/-- C3 witness: the amended theorem applied to the concurrent pair. -/
theorem c3_witness :
    VectorClock.compareVC ⟨[("c1", 1)]⟩ ⟨[("c2", 1)]⟩ = Ordering.eq := by
  exact (c3_compare_fused ⟨[("c1", 1)]⟩ ⟨[("c2", 1)]⟩).2.2 (by decide)

/-! ### LWW field merge (claims C2 and C4) -/

theorem lexLt_asymm : ∀ a b : List Char,
    lexLt a b = true → lexLt b a = false := by
  intro a
  induction a with
  | nil =>
      intro b _
      cases b <;> simp [lexLt]
  | cons x xs ih =>
      intro b h
      cases b with
      | nil => simp [lexLt] at h
      | cons y ys =>
          by_cases h1 : x.toNat < y.toNat
          · have h2 : ¬ y.toNat < x.toNat := by omega
            simp [lexLt, h1, h2]
          · by_cases h2 : y.toNat < x.toNat
            · simp [lexLt, h1, h2] at h
            · simp only [lexLt, if_neg h1, if_neg h2] at h
              simp [lexLt, h1, h2, ih ys h]

theorem isNewerThan_iff (a b : Timestamp) :
    a.isNewerThan b = true ↔
      (b.clock < a.clock ∨
       (a.clock = b.clock ∧ strLt b.clientId a.clientId = true)) := by
  unfold Timestamp.isNewerThan Timestamp.compareLww natCmp strCmp
  by_cases h1 : a.clock < b.clock
  · simp only [if_pos h1]
    constructor
    · intro h
      simp at h
    · rintro (h | ⟨h, _⟩) <;> omega
  · by_cases h2 : b.clock < a.clock
    · simp [h1, h2]
    · have hc : a.clock = b.clock := by omega
      simp only [if_neg h1, if_neg h2]
      by_cases h3 : strLt a.clientId b.clientId
      · have h4 : strLt b.clientId a.clientId = false :=
          lexLt_asymm _ _ h3
        simp [h3, h4, hc]
      · by_cases h4 : strLt b.clientId a.clientId
        · simp [h3, h4, hc]
        · simp [h3, h4, hc]

/-- C2: `merge_field` implements the LWW rule: a missing local field is
always replaced by the remote one; an existing local field is replaced
exactly when the remote timestamp is strictly greater in the total order
(clock first, then lexicographic client id, so on equal clocks the
lexicographically greater client id wins); the returned flag is true
exactly when the remote field was installed. -/
theorem c2_merge_field_lww {V : Type} [DecidableEq V]
    (d : Document V) (path : String) (rf : Field V) :
    (lookupAL d.fields path = none →
       lookupAL (d.mergeField path rf).1.fields path = some rf ∧
       (d.mergeField path rf).2 = true) ∧
    (∀ lf, lookupAL d.fields path = some lf →
       ((rf.timestamp.isNewerThan lf.timestamp = true →
           lookupAL (d.mergeField path rf).1.fields path = some rf ∧
           (d.mergeField path rf).2 = true) ∧
        (rf.timestamp.isNewerThan lf.timestamp = false →
           (d.mergeField path rf).1 = d ∧ (d.mergeField path rf).2 = false))) ∧
    (∀ a b : Timestamp, a.isNewerThan b = true ↔
       (b.clock < a.clock ∨
        (a.clock = b.clock ∧ strLt b.clientId a.clientId = true))) := by
  refine ⟨?_, ?_, isNewerThan_iff⟩
  · intro h
    simp [Document.mergeField, h, lookupAL_insertAL]
  · intro lf hl
    constructor
    · intro hts
      simp [Document.mergeField, hl, hts, lookupAL_insertAL]
    · intro hts
      simp [Document.mergeField, hl, hts]

/-- C2 witness: scenario S1 — local `("Hello", (1, "c1"))`, remote
`("World", (2, "c0"))`; the higher clock wins and the flag is true. -/
theorem c2_witness :
    lookupAL ((Document.mergeField
        (⟨"d", [("title", ⟨"Hello", ⟨1, "c1"⟩⟩)], ⟨[]⟩⟩ : Document String)
        "title" ⟨"World", ⟨2, "c0"⟩⟩).1.fields) "title"
      = some ⟨"World", ⟨2, "c0"⟩⟩ ∧
    (Document.mergeField
        (⟨"d", [("title", ⟨"Hello", ⟨1, "c1"⟩⟩)], ⟨[]⟩⟩ : Document String)
        "title" ⟨"World", ⟨2, "c0"⟩⟩).2 = true := by
  exact ((c2_merge_field_lww
    (⟨"d", [("title", ⟨"Hello", ⟨1, "c1"⟩⟩)], ⟨[]⟩⟩ : Document String)
    "title" ⟨"World", ⟨2, "c0"⟩⟩).2.1 ⟨"Hello", ⟨1, "c1"⟩⟩ (by decide)).1
    (by decide)

/-- C4 counterexample: a document holds `("old", (5, "c"))` at path
`"a"`; `set_field` with the *older* timestamp `(1, "c")` nevertheless
replaces the stored pair, so the write-drop invariant does not hold for
`set_field`. -/
theorem c4_counterexample :
    Timestamp.isNewerThan ⟨1, "c"⟩ ⟨5, "c"⟩ = false ∧
    lookupAL ((Document.setField
        (⟨"d", [("a", ⟨"old", ⟨5, "c"⟩⟩)], ⟨[]⟩⟩ : Document String)
        "a" "new" 1 "c").fields) "a" = some ⟨"new", ⟨1, "c"⟩⟩ := by
  decide

/-- C4 (amended): the write-drop invariant holds for merge writes:
`merge_field` with a remote timestamp not strictly greater than the
stored one leaves the document unchanged (value and timestamp) and
reports no update.  `set_field`, by contrast, installs unconditionally
and choosing a strictly greater clock is the caller's responsibility. -/
theorem c4_merge_write_drop {V : Type} [DecidableEq V]
    (d : Document V) (path : String) (lf rf : Field V)
    (hl : lookupAL d.fields path = some lf)
    (hts : rf.timestamp.isNewerThan lf.timestamp = false) :
    (d.mergeField path rf).1 = d ∧ (d.mergeField path rf).2 = false := by
  simp [Document.mergeField, hl, hts]

/-- C4 witness: an equal-timestamp remote write is dropped. -/
theorem c4_witness :
    (Document.mergeField
        (⟨"d", [("a", ⟨"x", ⟨3, "c"⟩⟩)], ⟨[]⟩⟩ : Document String)
        "a" ⟨"y", ⟨3, "c"⟩⟩).1
      = (⟨"d", [("a", ⟨"x", ⟨3, "c"⟩⟩)], ⟨[]⟩⟩ : Document String) ∧
    (Document.mergeField
        (⟨"d", [("a", ⟨"x", ⟨3, "c"⟩⟩)], ⟨[]⟩⟩ : Document String)
        "a" ⟨"y", ⟨3, "c"⟩⟩).2 = false :=
  c4_merge_write_drop _ "a" ⟨"x", ⟨3, "c"⟩⟩ ⟨"y", ⟨3, "c"⟩⟩
    (by decide) (by decide)

/-! ### Document merge frame property (claim C9) -/

section MergeFrame

variable {V : Type} [DecidableEq V]

theorem mergeField_fst_id (d : Document V) (p : String) (rf : Field V) :
    (d.mergeField p rf).1.id = d.id := by
  unfold Document.mergeField
  cases lookupAL d.fields p
  · rfl
  · dsimp only
    split <;> rfl

theorem mergeField_lookup_other (d : Document V) (p : String) (rf : Field V)
    (q : String) (h : p ≠ q) :
    lookupAL (d.mergeField p rf).1.fields q = lookupAL d.fields q := by
  unfold Document.mergeField
  cases lookupAL d.fields p
  · simp [lookupAL_insertAL, h]
  · dsimp only
    split
    · simp [lookupAL_insertAL, h]
    · rfl

theorem mergeField_lookup_isSome (d : Document V) (p : String) (rf : Field V)
    (q : String) (h : (lookupAL d.fields q).isSome = true) :
    (lookupAL (d.mergeField p rf).1.fields q).isSome = true := by
  by_cases hpq : p = q
  · subst hpq
    unfold Document.mergeField
    cases hl : lookupAL d.fields p
    · simp [lookupAL_insertAL]
    · dsimp only
      split
      · simp [lookupAL_insertAL]
      · simp [hl]
  · rw [mergeField_lookup_other d p rf q hpq]
    exact h

/-- The field-merging fold of `Document::merge` keeps the document id. -/
theorem mergeFold_id (l : List (String × Field V)) :
    ∀ (d : Document V) (n : Nat),
      ((l.foldl
        (fun (acc : Document V × Nat) pf =>
          let r := acc.1.mergeField pf.1 pf.2
          (r.1, if r.2 then acc.2 + 1 else acc.2))
        (d, n)).1).id = d.id := by
  induction l with
  | nil => intro d n; rfl
  | cons hd tl ih =>
      intro d n
      simp only [List.foldl_cons]
      rw [ih]
      exact mergeField_fst_id d hd.1 hd.2

/-- Paths not named by the fold's list keep their lookup result. -/
theorem mergeFold_lookup_not_mem (l : List (String × Field V)) :
    ∀ (d : Document V) (n : Nat) (q : String), q ∉ l.map Prod.fst →
      lookupAL ((l.foldl
        (fun (acc : Document V × Nat) pf =>
          let r := acc.1.mergeField pf.1 pf.2
          (r.1, if r.2 then acc.2 + 1 else acc.2))
        (d, n)).1).fields q = lookupAL d.fields q := by
  induction l with
  | nil => intro d n q _; rfl
  | cons hd tl ih =>
      intro d n q hq
      simp only [List.map_cons, List.mem_cons] at hq
      push_neg at hq
      simp only [List.foldl_cons]
      rw [ih _ _ _ hq.2]
      exact mergeField_lookup_other d hd.1 hd.2 q (fun h => hq.1 h.symm)

/-- The fold never loses a present path. -/
theorem mergeFold_lookup_isSome (l : List (String × Field V)) :
    ∀ (d : Document V) (n : Nat) (q : String),
      (lookupAL d.fields q).isSome = true →
      (lookupAL ((l.foldl
        (fun (acc : Document V × Nat) pf =>
          let r := acc.1.mergeField pf.1 pf.2
          (r.1, if r.2 then acc.2 + 1 else acc.2))
        (d, n)).1).fields q).isSome = true := by
  induction l with
  | nil => intro d n q h; exact h
  | cons hd tl ih =>
      intro d n q h
      simp only [List.foldl_cons]
      exact ih _ _ _ (mergeField_lookup_isSome d hd.1 hd.2 q h)

/-- C9: merging a remote document never removes a field: the id is
unchanged, every locally present path stays present, and every local
path not mentioned in the remote document keeps its exact
(value, timestamp) pair. -/
theorem c9_merge_frame (d r : Document V) :
    (d.mergeDoc r).1.id = d.id ∧
    (∀ p, (lookupAL d.fields p).isSome = true →
       (lookupAL (d.mergeDoc r).1.fields p).isSome = true) ∧
    (∀ p, lookupAL r.fields p = none →
       lookupAL (d.mergeDoc r).1.fields p = lookupAL d.fields p) := by
  refine ⟨?_, ?_, ?_⟩
  · show ((r.fields.foldl _ (d, 0)).1).id = d.id
    exact mergeFold_id r.fields d 0
  · intro p h
    exact mergeFold_lookup_isSome r.fields d 0 p h
  · intro p h
    exact mergeFold_lookup_not_mem r.fields d 0 p
      ((lookupAL_eq_none_iff _ _).mp h)

end MergeFrame

/-- C9 witness: merging a remote document with a disjoint field keeps
the local field `"a"` byte-for-byte and the id. -/
theorem c9_witness :
    ((Document.mergeDoc
        (⟨"d", [("a", ⟨"x", ⟨1, "c"⟩⟩)], ⟨[]⟩⟩ : Document String)
        ⟨"d", [("b", ⟨"y", ⟨2, "c"⟩⟩)], ⟨[]⟩⟩).1).id = "d" ∧
    (lookupAL ((Document.mergeDoc
        (⟨"d", [("a", ⟨"x", ⟨1, "c"⟩⟩)], ⟨[]⟩⟩ : Document String)
        ⟨"d", [("b", ⟨"y", ⟨2, "c"⟩⟩)], ⟨[]⟩⟩).1).fields "a").isSome = true ∧
    lookupAL ((Document.mergeDoc
        (⟨"d", [("a", ⟨"x", ⟨1, "c"⟩⟩)], ⟨[]⟩⟩ : Document String)
        ⟨"d", [("b", ⟨"y", ⟨2, "c"⟩⟩)], ⟨[]⟩⟩).1).fields "a"
      = some ⟨"x", ⟨1, "c"⟩⟩ := by
  obtain ⟨h1, h2, h3⟩ := c9_merge_frame
    (⟨"d", [("a", ⟨"x", ⟨1, "c"⟩⟩)], ⟨[]⟩⟩ : Document String)
    ⟨"d", [("b", ⟨"y", ⟨2, "c"⟩⟩)], ⟨[]⟩⟩
  exact ⟨h1, h2 "a" (by decide), (h3 "a" (by decide)).trans (by decide)⟩

/-! ### Empty and identical-field deltas (claim C10) -/

/-- C10: computing a delta between identical documents yields an empty
delta, and more generally `compute_delta` emits no change for any path
whose field (value and timestamp) is identical in `old` and `new`. -/
theorem c10_compute_delta_identity {V : Type} [DecidableEq V] :
    (∀ d : Document V, (d.fields.map Prod.fst).Nodup →
       (computeDelta d d).isEmpty = true) ∧
    (∀ old new : Document V, (new.fields.map Prod.fst).Nodup →
       ∀ p f, lookupAL old.fields p = some f → lookupAL new.fields p = some f →
         lookupAL (computeDelta old new).fields p = none) := by
  constructor
  · intro d hnd
    have : (computeDelta d d).fields = [] := by
      apply List.filter_eq_nil_iff.mpr
      intro pf hpf
      obtain ⟨p, f⟩ := pf
      have : lookupAL d.fields p = some f := lookupAL_of_mem_nodup _ _ _ hnd hpf
      simp [this]
    simp [Delta.isEmpty, this]
  · intro old new hnd p f ho hn
    show lookupAL (new.fields.filter _) p = none
    rw [lookupAL_filter _ _ _ hnd, hn]
    simp [ho]

/-! ### Delta round-trip (claim C1) -/

section DeltaRoundTrip

variable {V : Type} [DecidableEq V]

theorem applyDeltaField_lookup_other (doc : Document V) (q : String)
    (df : Field V) (p : String) (h : q ≠ p) :
    lookupAL (applyDeltaField doc q df).fields p = lookupAL doc.fields p := by
  unfold applyDeltaField
  cases lookupAL doc.fields q
  · simp [lookupAL_insertAL, h]
  · dsimp only
    split
    · simp [lookupAL_insertAL, h]
    · split
      · simp [lookupAL_insertAL, h]
      · rfl
    · rfl

theorem applyDeltaField_lookup_self (doc : Document V) (p : String)
    (df : Field V) :
    lookupAL (applyDeltaField doc p df).fields p =
      match lookupAL doc.fields p with
      | some lf =>
          match tsCmp df.timestamp lf.timestamp with
          | Ordering.gt => some df
          | Ordering.eq =>
              if strLt lf.timestamp.clientId df.timestamp.clientId then some df
              else some lf
          | Ordering.lt => some lf
      | none => some df := by
  unfold applyDeltaField
  cases h : lookupAL doc.fields p
  · simp [lookupAL_insertAL]
  · dsimp only
    split
    · simp [lookupAL_insertAL]
    · split
      · simp [lookupAL_insertAL]
      · simpa using h
    · simpa using h

theorem applyDeltaField_lookup_self_congr (doc doc' : Document V)
    (p : String) (df : Field V)
    (h : lookupAL doc.fields p = lookupAL doc'.fields p) :
    lookupAL (applyDeltaField doc p df).fields p =
    lookupAL (applyDeltaField doc' p df).fields p := by
  rw [applyDeltaField_lookup_self, applyDeltaField_lookup_self, h]

theorem applyFold_lookup_not_mem (l : List (String × Field V)) :
    ∀ (doc : Document V) (p : String), p ∉ l.map Prod.fst →
      lookupAL ((l.foldl (fun acc pf => applyDeltaField acc pf.1 pf.2)
        doc).fields) p = lookupAL doc.fields p := by
  induction l with
  | nil => intro doc p _; rfl
  | cons hd tl ih =>
      intro doc p hp
      simp only [List.map_cons, List.mem_cons] at hp
      push_neg at hp
      simp only [List.foldl_cons]
      rw [ih _ _ hp.2]
      exact applyDeltaField_lookup_other doc hd.1 hd.2 p
        (fun h => hp.1 h.symm)

theorem applyFold_lookup (l : List (String × Field V))
    (hnd : (l.map Prod.fst).Nodup) :
    ∀ (doc : Document V) (p : String),
      lookupAL ((l.foldl (fun acc pf => applyDeltaField acc pf.1 pf.2)
        doc).fields) p =
      match lookupAL l p with
      | some df => lookupAL (applyDeltaField doc p df).fields p
      | none => lookupAL doc.fields p := by
  induction l with
  | nil => intro doc p; rfl
  | cons hd tl ih =>
      intro doc p
      obtain ⟨k, df⟩ := hd
      simp only [List.map_cons, List.nodup_cons] at hnd
      simp only [List.foldl_cons]
      by_cases hkp : k = p
      · subst hkp
        rw [applyFold_lookup_not_mem tl _ k hnd.1]
        simp [lookupAL]
      · rw [ih hnd.2]
        have hd' : lookupAL (applyDeltaField doc k df).fields p
            = lookupAL doc.fields p :=
          applyDeltaField_lookup_other doc k df p hkp
        simp only [lookupAL, if_neg hkp]
        cases lookupAL tl p
        · exact hd'
        · exact applyDeltaField_lookup_self_congr _ _ _ _ hd'

end DeltaRoundTrip

/-- C1 counterexample: `old` holds `("x", (1, "c1"))` at `"a"` and
`("z", (1, "c1"))` at `"b"`; `new` holds `("y", (1, "c1"))` at `"a"`
only.  Every field of `new` carries a timestamp ≥ (total order) the old
field at the same path, ids agree, yet the round trip keeps the old
value at `"a"` (equal timestamps are dropped by `apply_delta`) and keeps
path `"b"` (no tombstones are computed), so the result differs from
`new` on both paths. -/
theorem c1_counterexample :
    (Document.id (V := String) ⟨"d", [("a", ⟨"x", ⟨1, "c1"⟩⟩), ("b", ⟨"z", ⟨1, "c1"⟩⟩)], ⟨[]⟩⟩
      = Document.id (V := String) ⟨"d", [("a", ⟨"y", ⟨1, "c1"⟩⟩)], ⟨[]⟩⟩) ∧
    (tsCmp ⟨1, "c1"⟩ ⟨1, "c1"⟩ ≠ Ordering.lt) ∧
    ((applyDelta (⟨"d", [("a", ⟨"x", ⟨1, "c1"⟩⟩), ("b", ⟨"z", ⟨1, "c1"⟩⟩)], ⟨[]⟩⟩ : Document String)
        (computeDelta ⟨"d", [("a", ⟨"x", ⟨1, "c1"⟩⟩), ("b", ⟨"z", ⟨1, "c1"⟩⟩)], ⟨[]⟩⟩
          ⟨"d", [("a", ⟨"y", ⟨1, "c1"⟩⟩)], ⟨[]⟩⟩)).map
        (fun d => lookupAL d.fields "a") = some (some ⟨"x", ⟨1, "c1"⟩⟩)) ∧
    (lookupAL (Document.fields (V := String) ⟨"d", [("a", ⟨"y", ⟨1, "c1"⟩⟩)], ⟨[]⟩⟩) "a"
      = some ⟨"y", ⟨1, "c1"⟩⟩) ∧
    ((applyDelta (⟨"d", [("a", ⟨"x", ⟨1, "c1"⟩⟩), ("b", ⟨"z", ⟨1, "c1"⟩⟩)], ⟨[]⟩⟩ : Document String)
        (computeDelta ⟨"d", [("a", ⟨"x", ⟨1, "c1"⟩⟩), ("b", ⟨"z", ⟨1, "c1"⟩⟩)], ⟨[]⟩⟩
          ⟨"d", [("a", ⟨"y", ⟨1, "c1"⟩⟩)], ⟨[]⟩⟩)).map
        (fun d => lookupAL d.fields "b") = some (some ⟨"z", ⟨1, "c1"⟩⟩)) ∧
    (lookupAL (Document.fields (V := String) ⟨"d", [("a", ⟨"y", ⟨1, "c1"⟩⟩)], ⟨[]⟩⟩) "b"
      = none) := by
  decide

/-- C1 (amended): the round trip
`apply_delta(old, compute_delta(old, new))` reconstructs `new`'s fields
exactly, provided every path of `old` is still present in `new` (the
delta computes no tombstones) and every shared path carries either an
identical field or a timestamp *strictly* greater in the total order
(changes whose timestamp merely equals the old one are dropped by
`apply_delta`'s LWW guard). -/
theorem c1_delta_round_trip {V : Type} [DecidableEq V]
    (old new : Document V)
    (hid : old.id = new.id)
    (hnodup : (new.fields.map Prod.fst).Nodup)
    (hsub : ∀ pf ∈ old.fields, (lookupAL new.fields pf.1).isSome = true)
    (hts : ∀ pf ∈ old.fields, ∀ fn, lookupAL new.fields pf.1 = some fn →
       (pf.2 = fn ∨ tsCmp fn.timestamp pf.2.timestamp = Ordering.gt)) :
    ∃ d, applyDelta old (computeDelta old new) = some d ∧
      ∀ p, lookupAL d.fields p = lookupAL new.fields p := by
  have hguard : old.id = (computeDelta old new).documentId := hid
  have hndDelta : ((computeDelta old new).fields.map Prod.fst).Nodup := by
    show ((new.fields.filter _).map Prod.fst).Nodup
    exact ((List.filter_sublist _).map Prod.fst).nodup hnodup
  refine ⟨_, by rw [applyDelta, if_pos hguard], ?_⟩
  intro p
  show lookupAL (((computeDelta old new).fields.foldl
      (fun acc pf => applyDeltaField acc pf.1 pf.2) old).fields) p
    = lookupAL new.fields p
  rw [applyFold_lookup _ hndDelta]
  have hdl : lookupAL (computeDelta old new).fields p =
      match lookupAL new.fields p with
      | some fn =>
          if (match lookupAL old.fields p with
              | some oldField => decide (oldField ≠ fn)
              | none => true) then some fn else none
      | none => none := by
    show lookupAL (new.fields.filter _) p = _
    rw [lookupAL_filter _ _ _ hnodup]
    cases lookupAL new.fields p <;> rfl
  cases hn : lookupAL new.fields p with
  | none =>
      have ho : lookupAL old.fields p = none := by
        cases ho : lookupAL old.fields p with
        | none => rfl
        | some fo =>
            have h1 := hsub (p, fo) (mem_of_lookupAL _ _ _ ho)
            rw [hn] at h1
            simp at h1
      have hdval : lookupAL (computeDelta old new).fields p = none := by
        simp [hdl, hn]
      rw [hdval]
      exact ho
  | some fn =>
      cases ho : lookupAL old.fields p with
      | none =>
          have hdval : lookupAL (computeDelta old new).fields p = some fn := by
            simp [hdl, hn, ho]
          rw [hdval]
          show lookupAL (applyDeltaField old p fn).fields p = some fn
          simp [applyDeltaField_lookup_self, ho]
      | some fo =>
          have hmem := mem_of_lookupAL _ _ _ ho
          by_cases hfo : fo = fn
          · subst hfo
            have hdval : lookupAL (computeDelta old new).fields p = none := by
              simp [hdl, hn, ho]
            rw [hdval]
          · have hgt : tsCmp fn.timestamp fo.timestamp = Ordering.gt := by
              rcases hts (p, fo) hmem fn hn with h | h
              · exact absurd h hfo
              · exact h
            have hdval : lookupAL (computeDelta old new).fields p = some fn := by
              simp [hdl, hn, ho, hfo]
            rw [hdval]
            show lookupAL (applyDeltaField old p fn).fields p = some fn
            simp [applyDeltaField_lookup_self, ho, hgt]

/-- C1 witness: the amended round trip on a modified field plus a fresh
field, both with strictly greater timestamps. -/
theorem c1_witness :
    ∃ d, applyDelta (⟨"d", [("a", ⟨"x", ⟨1, "c"⟩⟩)], ⟨[]⟩⟩ : Document String)
        (computeDelta ⟨"d", [("a", ⟨"x", ⟨1, "c"⟩⟩)], ⟨[]⟩⟩
          ⟨"d", [("a", ⟨"y", ⟨2, "c"⟩⟩), ("b", ⟨"z", ⟨1, "c"⟩⟩)], ⟨[]⟩⟩) = some d ∧
      ∀ p, lookupAL d.fields p =
        lookupAL (Document.fields (V := String)
          ⟨"d", [("a", ⟨"y", ⟨2, "c"⟩⟩), ("b", ⟨"z", ⟨1, "c"⟩⟩)], ⟨[]⟩⟩) p := by
  apply c1_delta_round_trip
  · rfl
  · decide
  · intro pf hpf
    simp only [List.mem_singleton] at hpf
    subst hpf
    decide
  · intro pf hpf fn hfn
    simp only [List.mem_singleton] at hpf
    subst hpf
    have : some (⟨"y", ⟨2, "c"⟩⟩ : Field String) = some fn := hfn
    obtain rfl := Option.some.inj this
    exact Or.inr (by decide)

/-! ### OR-Set add-wins (claim C5) -/

theorem mem_insertTag_iff (l : List UniqueTag) (t x : UniqueTag) :
    x ∈ insertTag l t ↔ x ∈ l ∨ x = t := by
  unfold insertTag
  by_cases h : t ∈ l
  · simp only [if_pos h]
    constructor
    · exact Or.inl
    · rintro (hx | rfl)
      · exact hx
      · exact h
  · simp [if_neg h]

theorem mem_foldl_insertTag (l : List UniqueTag) :
    ∀ (base : List UniqueTag) (x : UniqueTag),
      x ∈ l.foldl insertTag base ↔ x ∈ base ∨ x ∈ l := by
  induction l with
  | nil => simp
  | cons hd tl ih =>
      intro base x
      simp only [List.foldl_cons, ih, mem_insertTag_iff, List.mem_cons]
      tauto

/-- Tag sets only grow across the element-union fold of
`ORSet::merge`. -/
theorem orset_merge_tags_mono {T : Type} [DecidableEq T]
    (l : List (T × List UniqueTag)) :
    ∀ (acc : List (T × List UniqueTag)) (e : T) (x : UniqueTag),
      x ∈ (lookupAL acc e).getD [] →
      x ∈ (lookupAL (l.foldl
        (fun acc p =>
          insertAL acc p.1 (p.2.foldl insertTag ((lookupAL acc p.1).getD [])))
        acc) e).getD [] := by
  induction l with
  | nil => intro acc e x h; exact h
  | cons hd tl ih =>
      intro acc e x h
      simp only [List.foldl_cons]
      apply ih
      rw [lookupAL_insertAL]
      by_cases hkey : hd.1 = e
      · subst hkey
        simp only [if_pos rfl, Option.getD_some]
        exact (mem_foldl_insertTag hd.2 _ x).mpr (Or.inl h)
      · simp only [if_neg hkey]
        exact h

/-- C5: add-wins.  Replica `A` performs `add(e)` (fresh tag) while
replica `B`, which has observed some add of `e`, performs `remove(e)`;
after merging `B` into `A`, `contains(e)` holds, because `A`'s fresh tag
is in no removed-tag set: every tag of `A`'s replica that `A`'s or `B`'s
state has observed carries a sequence number at most `A`'s counter,
while the fresh tag carries `A.sequence + 1`. -/
theorem c5_orset_add_wins {T : Type} [DecidableEq T]
    (A B : ORSet T) (e : T) (ts : Nat)
    (hobs : (lookupAL B.elements e).getD [] ≠ [])
    (hA : ∀ t ∈ A.removedTags,
      t.replicaId = A.replicaId → t.sequence ≤ A.sequence)
    (hB : ∀ t ∈ B.removedTags,
      t.replicaId = A.replicaId → t.sequence ≤ A.sequence)
    (hBe : ∀ t ∈ (lookupAL B.elements e).getD [],
      t.replicaId = A.replicaId → t.sequence ≤ A.sequence) :
    ((A.add e ts).mergeOR (B.remove e)).contains e = true := by
  classical
  set f : UniqueTag := ⟨A.replicaId, ts, A.sequence + 1⟩ with hf
  have hseq : f.sequence = A.sequence + 1 := rfl
  -- the fresh tag is among the merged tags of `e`
  have hmemA : f ∈ (lookupAL (A.add e ts).elements e).getD [] := by
    show f ∈ (lookupAL (insertAL A.elements e _) e).getD []
    rw [lookupAL_insertAL]
    simp only [if_pos rfl, Option.getD_some]
    exact (mem_insertTag_iff _ _ _).mpr (Or.inr rfl)
  have hmem : f ∈ (lookupAL ((A.add e ts).mergeOR (B.remove e)).elements e).getD [] := by
    show f ∈ (lookupAL ((B.remove e).elements.foldl _ (A.add e ts).elements) e).getD []
    exact orset_merge_tags_mono _ _ _ _ hmemA
  -- the fresh tag is not among the merged removed tags
  have hremB : ∀ x ∈ (B.remove e).removedTags,
      x ∈ B.removedTags ∨ x ∈ (lookupAL B.elements e).getD [] := by
    intro x hx
    unfold ORSet.remove at hx
    cases hl : lookupAL B.elements e with
    | none => rw [hl] at hx; exact Or.inl hx
    | some tags =>
        rw [hl] at hx
        have := (mem_foldl_insertTag tags B.removedTags x).mp hx
        simpa using this
  have hnotrem : f ∉ ((A.add e ts).mergeOR (B.remove e)).removedTags := by
    intro hx
    have hx' : f ∈ (A.add e ts).removedTags ∨ f ∈ (B.remove e).removedTags :=
      (mem_foldl_insertTag _ _ _).mp hx
    have hAr : (A.add e ts).removedTags = A.removedTags := rfl
    rcases hx' with hx1 | hx1
    · rw [hAr] at hx1
      have := hA f hx1 rfl
      omega
    · rcases hremB f hx1 with hx2 | hx2
      · have := hB f hx2 rfl
        omega
      · have := hBe f hx2 rfl
        omega
  -- conclude
  rcases hlm : lookupAL ((A.add e ts).mergeOR (B.remove e)).elements e with _ | tags
  · rw [hlm] at hmem
    simp at hmem
  · show ORSet.contains _ e = true
    unfold ORSet.contains
    rw [hlm]
    rw [hlm] at hmem
    simp only [Option.getD_some] at hmem
    exact List.any_eq_true.mpr ⟨f, hmem, by simpa using hnotrem⟩

/-- C5 witness: scenario S6 — `A` is empty, `B` has observed its own add
of `"x"` and removes it; `A`'s concurrent add survives the merge. -/
theorem c5_witness :
    ((ORSet.add (ORSet.new "A" : ORSet String) "x" 7).mergeOR
      (ORSet.remove ⟨"B", [("x", [⟨"B", 5, 1⟩])], [], 1⟩ "x")).contains "x"
      = true := by
  apply c5_orset_add_wins (A := ORSet.new "A")
    (B := ⟨"B", [("x", [⟨"B", 5, 1⟩])], [], 1⟩) "x" 7
  · decide
  · intro t ht _
    simp [ORSet.new] at ht
  · intro t ht _
    simp at ht
  · intro t ht hrep
    simp [lookupAL] at ht
    subst ht
    simp [ORSet.new] at hrep

/-! ### FractionalIndex (claims C7 and C8) -/

/-- C7 counterexample: `between` with equal bounds does not return a
typed `InvalidOperation` result — its return type carries no error
variant at all, and the call aborts through the `assert!` (a panic in
every build profile). -/
theorem c7_counterexample :
    between "a0".toList "a0".toList =
      BetweenResult.fail "Left position must be less than right position" := by
  decide

/-- C7 (amended): `between(left, right)` with `left ≥ right` byte-wise
fails by panicking — the `assert!` aborts with the message below in all
build profiles — rather than returning an `InvalidOperation` error
value. -/
theorem c7_between_panics (l r : List Char) (h : lexLt l r = false) :
    between l r =
      BetweenResult.fail "Left position must be less than right position" := by
  unfold between
  rw [h]
  rfl

/-- C7 witness: the amended theorem at equal bounds. -/
theorem c7_witness :
    between "z".toList "a0".toList =
      BetweenResult.fail "Left position must be less than right position" :=
  c7_between_panics _ _ (by decide)

theorem digitToValue_le (c : Char) : digitToValue c ≤ 61 := by
  simp only [digitToValue]
  split_ifs <;> omega

theorem headR_le (r : List Char) : headR r ≤ 62 := by
  cases r with
  | nil => simp [headR]
  | cons c cs => simpa [headR] using Nat.le_trans (digitToValue_le c) (by omega)

set_option maxRecDepth 8192 in
theorem validRoundTrip : ∀ c ∈ DIGITS, valueToChar (digitToValue c) = c := by
  decide

set_option maxRecDepth 8192 in
theorem validOrder : ∀ c ∈ DIGITS, ∀ d ∈ DIGITS,
    (digitToValue c < digitToValue d ↔ c.toNat < d.toNat) := by
  decide

set_option maxRecDepth 8192 in
theorem valueToChar_mem : ∀ v : Nat, v < 62 →
    valueToChar v ∈ DIGITS ∧ digitToValue (valueToChar v) = v := by
  decide

/-- For valid digit strings of bounded length, `compute_midpoint` always
moves strictly to the right of its left input. -/
theorem midGo_gt_left : ∀ (fuel : Nat) (l r m : List Char),
    (∀ c ∈ l, isBase62 c = true) → l.length ≤ fuel + 1 →
    midGo l r fuel = some m → lexLt l m = true := by
  intro fuel
  induction fuel with
  | zero =>
      intro l r m hvalid hlen hmid
      unfold midGo at hmid
      by_cases h1 : headL l < headR r
      · rw [if_pos h1] at hmid
        by_cases h2 : headL l + 1 < headR r
        · rw [if_pos h2] at hmid
          obtain rfl := Option.some.inj hmid
          cases l with
          | nil => rfl
          | cons c ls =>
              have hL : headL (c :: ls) = digitToValue c := rfl
              rw [hL] at h1 h2 ⊢
              have hc : c ∈ DIGITS :=
                of_decide_eq_true (hvalid c (List.mem_cons_self c ls))
              have h62 := headR_le r
              have hmidval : digitToValue c < (digitToValue c + headR r) / 2 := by
                omega
              have hmidle : (digitToValue c + headR r) / 2 < 62 := by
                have hd := digitToValue_le c
                omega
              obtain ⟨hmem, hval⟩ := valueToChar_mem _ hmidle
              have hlt : c.toNat < (valueToChar ((digitToValue c + headR r) / 2)).toNat := by
                rw [← (validOrder c hc _ hmem), hval]
                exact hmidval
              simp [lexLt, hlt]
        · rw [if_neg h2] at hmid
          obtain rfl := Option.some.inj hmid
          cases l with
          | nil => rfl
          | cons c ls =>
              have hc : c ∈ DIGITS :=
                of_decide_eq_true (hvalid c (List.mem_cons_self c ls))
              have hls : ls = [] := by
                simp only [List.length_cons] at hlen
                have : ls.length = 0 := by omega
                exact List.length_eq_zero.mp this
              subst hls
              have hrt : valueToChar (headL [c]) = c := validRoundTrip c hc
              rw [hrt]
              simp [lexLt]
      · rw [if_neg h1] at hmid
        by_cases h3 : headR r < headL l
        · rw [if_pos h3] at hmid
          exact absurd hmid (by simp)
        · rw [if_neg h3] at hmid
          obtain rfl := Option.some.inj hmid
          cases l with
          | nil => rfl
          | cons c ls =>
              have hc : c ∈ DIGITS :=
                of_decide_eq_true (hvalid c (List.mem_cons_self c ls))
              have hls : ls = [] := by
                simp only [List.length_cons] at hlen
                have : ls.length = 0 := by omega
                exact List.length_eq_zero.mp this
              subst hls
              have hrt : valueToChar (headL [c]) = c := validRoundTrip c hc
              rw [hrt]
              simp [lexLt]
  | succ f ih =>
      intro l r m hvalid hlen hmid
      unfold midGo at hmid
      by_cases h1 : headL l < headR r
      · rw [if_pos h1] at hmid
        by_cases h2 : headL l + 1 < headR r
        · rw [if_pos h2] at hmid
          obtain rfl := Option.some.inj hmid
          cases l with
          | nil => rfl
          | cons c ls =>
              have hL : headL (c :: ls) = digitToValue c := rfl
              rw [hL] at h1 h2 ⊢
              have hc : c ∈ DIGITS :=
                of_decide_eq_true (hvalid c (List.mem_cons_self c ls))
              have h62 := headR_le r
              have hmidval : digitToValue c < (digitToValue c + headR r) / 2 := by
                omega
              have hmidle : (digitToValue c + headR r) / 2 < 62 := by
                have hd := digitToValue_le c
                omega
              obtain ⟨hmem, hval⟩ := valueToChar_mem _ hmidle
              have hlt : c.toNat < (valueToChar ((digitToValue c + headR r) / 2)).toNat := by
                rw [← (validOrder c hc _ hmem), hval]
                exact hmidval
              simp [lexLt, hlt]
        · rw [if_neg h2] at hmid
          have hmid' : (midGo l.tail r.tail f).map
              (fun rest => valueToChar (headL l) :: rest) = some m := hmid
          rcases hrec : midGo l.tail r.tail f with _ | rest
          · rw [hrec] at hmid'
            exact absurd hmid' (by simp)
          · rw [hrec] at hmid'
            simp only [Option.map_some'] at hmid'
            obtain rfl := Option.some.inj hmid'
            cases l with
            | nil => rfl
            | cons c ls =>
                have hc : c ∈ DIGITS :=
                  of_decide_eq_true (hvalid c (List.mem_cons_self c ls))
                have hrt : valueToChar (headL (c :: ls)) = c := validRoundTrip c hc
                rw [hrt]
                have htail : lexLt ls rest = true := by
                  apply ih ls r.tail rest
                  · intro x hx
                    exact hvalid x (List.mem_cons_of_mem c hx)
                  · simp only [List.length_cons] at hlen
                    omega
                  · exact hrec
                simp [lexLt, htail]
      · rw [if_neg h1] at hmid
        by_cases h3 : headR r < headL l
        · rw [if_pos h3] at hmid
          exact absurd hmid (by simp)
        · rw [if_neg h3] at hmid
          have hmid' : (midGo l.tail r.tail f).map
              (fun rest => valueToChar (headL l) :: rest) = some m := hmid
          rcases hrec : midGo l.tail r.tail f with _ | rest
          · rw [hrec] at hmid'
            exact absurd hmid' (by simp)
          · rw [hrec] at hmid'
            simp only [Option.map_some'] at hmid'
            obtain rfl := Option.some.inj hmid'
            cases l with
            | nil => rfl
            | cons c ls =>
                have hc : c ∈ DIGITS :=
                  of_decide_eq_true (hvalid c (List.mem_cons_self c ls))
                have hrt : valueToChar (headL (c :: ls)) = c := validRoundTrip c hc
                rw [hrt]
                have htail : lexLt ls rest = true := by
                  apply ih ls r.tail rest
                  · intro x hx
                    exact hvalid x (List.mem_cons_of_mem c hx)
                  · simp only [List.length_cons] at hlen
                    omega
                  · exact hrec
                simp [lexLt, htail]

/-- C8 counterexample: `between` does not always return a key strictly
inside the interval.  (i) `between("a", "a0")` returns `"a0V"`, which is
not below the right bound `"a0"`; (ii) on the valid pair
`("aZ", "b0")` the midpoint loop reaches its `unreachable!` arm and
panics; (iii) behind the depth cutoff a result below the *left* bound is
produced; (iv) the same happens for characters outside the base-62
alphabet. -/
theorem c8_counterexample :
    (lexLt "a".toList "a0".toList = true ∧
     between "a".toList "a0".toList = BetweenResult.ok "a0V".toList ∧
     lexLt "a0V".toList "a0".toList = false) ∧
    (lexLt "aZ".toList "b0".toList = true ∧
     between "aZ".toList "b0".toList = BetweenResult.fail "left should be < right") ∧
    (lexLt (List.replicate 21 'a' ++ ['z', 'z']) (List.replicate 20 'a' ++ ['b']) = true ∧
     between (List.replicate 21 'a' ++ ['z', 'z']) (List.replicate 20 'a' ++ ['b'])
       = BetweenResult.ok (List.replicate 21 'a' ++ ['V']) ∧
     lexLt (List.replicate 21 'a' ++ ['z', 'z']) (List.replicate 21 'a' ++ ['V']) = false) ∧
    (lexLt "~".toList "~~".toList = true ∧
     between "~".toList "~~".toList = BetweenResult.ok "00V".toList ∧
     lexLt "~".toList "00V".toList = false) := by
  decide

set_option maxHeartbeats 3200000 in
/-- C8 (amended): whenever `between(l, r)` returns normally on base-62
inputs whose left bound has at most 21 digits, the result is strictly
greater than `l`; the `m < r` half and normal return can fail in general
(see the counterexample), but the iterated scenario S5 — 100 consecutive
insertions between `first()` and the most recently produced key, starting
from the interval `[first(), after(first()))` — succeeds with strict
ordering on both sides at every step. -/
theorem c8_dense_ordering (l r m : List Char)
    (hvalid : ∀ c ∈ l, isBase62 c = true)
    (hlen : l.length ≤ 21)
    (hok : between l r = BetweenResult.ok m) :
    lexLt l m = true ∧ scenarioS5 = true := by
  refine ⟨?_, by decide⟩
  unfold between at hok
  by_cases h : lexLt l r
  · rw [if_pos h] at hok
    rcases hmid : midGo l r 20 with _ | m'
    · rw [hmid] at hok
      exact absurd hok (by simp)
    · rw [hmid] at hok
      simp only [BetweenResult.ok.injEq] at hok
      subst hok
      exact midGo_gt_left 20 l r m' hvalid (by omega) hmid
  · rw [if_neg h] at hok
    exact absurd hok (by simp)

/-- C8 witness: the amended theorem at `l = "a0"`, `r = "b"`. -/
theorem c8_witness :
    lexLt "a0".toList "aV".toList = true ∧ scenarioS5 = true :=
  c8_dense_ordering "a0".toList "b".toList "aV".toList
    (by decide) (by decide) (by decide)

/-! ### Text CRDT scenario S3 (claim C6)

The Rust `HashMap` iteration order is unobservable except through the
order in which `Text::merge` encounters remote items; the theorems below
quantify over all such orders.  The two genuinely order-sensitive steps
(the initial five-item catch-up merge and the final re-integration) are
settled by exhaustive evaluation over all 120 permutations; the two
single-new-item merges are settled by the fold characterisation
lemmas. -/

theorem mem_insertsOf_append {α : Type} (x : α) :
    ∀ s t : List α, (s ++ x :: t) ∈ insertsOf x (s ++ t) := by
  intro s
  induction s with
  | nil =>
      intro t
      cases t with
      | nil => simp [insertsOf]
      | cons y ys => simp [insertsOf]
  | cons w ws ih =>
      intro t
      simp only [List.cons_append, insertsOf, List.mem_cons]
      exact Or.inr (List.mem_map.mpr ⟨ws ++ x :: t, ih t, rfl⟩)

theorem mem_permsOf_of_perm {α : Type} :
    ∀ (l z : List α), z.Perm l → z ∈ permsOf l := by
  intro l
  induction l with
  | nil =>
      intro z hz
      rw [hz.eq_nil]
      simp [permsOf]
  | cons x xs ih =>
      intro z hz
      have hx : x ∈ z := hz.mem_iff.mpr (List.mem_cons_self x xs)
      obtain ⟨s, t, rfl⟩ := List.append_of_mem hx
      have hmid : (x :: (s ++ t)).Perm (s ++ x :: t) := List.perm_middle.symm
      have hst : (s ++ t).Perm xs :=
        (hmid.trans hz).cons_inv
      have hmem : (s ++ t) ∈ permsOf xs := ih _ hst
      simp only [permsOf, List.mem_bind]
      exact ⟨s ++ t, hmem, mem_insertsOf_append x s t⟩

/-- A fold of `merge`'s per-item step over entries that are all already
present, with no deletion to import, is the identity. -/
theorem noopFoldAll (l : List (ItemId × Item)) :
    ∀ (acc1 : List (ItemId × Item)) (ids : List ItemId),
      (∀ e ∈ l, ∃ m, lookupAL acc1 e.1 = some m ∧
        (e.2.deleted = true → m.deleted = true)) →
      l.foldl Text.mergeStep (acc1, ids) = (acc1, ids) := by
  induction l with
  | nil => intro acc1 ids _; rfl
  | cons e tl ih =>
      intro acc1 ids h
      obtain ⟨m, hm, hdel⟩ := h e (List.mem_cons_self e tl)
      have hstep : Text.mergeStep (acc1, ids) e = (acc1, ids) := by
        unfold Text.mergeStep
        rw [hm]
        have hcond : (e.2.deleted && !m.deleted) = false := by
          cases hd : e.2.deleted with
          | true => simp [hdel hd]
          | false => simp
        simp [hcond]
      simp only [List.foldl_cons, hstep]
      exact ih acc1 ids (fun e' he' => h e' (List.mem_cons_of_mem e he'))

/-- The item-collection fold of `Text::merge` over any order of a remote
store that contributes exactly one unseen, undeleted-entry item `nid`
produces `insert nid` and queues exactly `[nid]`. -/
theorem mergeFold_single_new (base : List (ItemId × Item)) (nid : ItemId)
    (nit : Item) (hnew : lookupAL base nid = none) :
    ∀ o : List (ItemId × Item),
      (o.map Prod.fst).Nodup →
      (∀ e ∈ o, e.1 = nid → e.2 = nit) →
      (∀ e ∈ o, e.1 ≠ nid → ∃ m, lookupAL base e.1 = some m ∧
        (e.2.deleted = true → m.deleted = true)) →
      (nid, nit) ∈ o →
      o.foldl Text.mergeStep (base, []) = (insertAL base nid nit, [nid]) := by
  intro o
  induction o with
  | nil => intro _ _ _ hmem; simp at hmem
  | cons e tl ih =>
      intro hnd hval hold hmem
      simp only [List.map_cons, List.nodup_cons] at hnd
      by_cases he : e.1 = nid
      · have he2 : e.2 = nit := hval e (List.mem_cons_self e tl) he
        have heq : e = (nid, nit) := by
          obtain ⟨e1, e2⟩ := e
          simp only at he he2
          rw [he, he2]
        subst heq
        have hstep : Text.mergeStep (base, ([] : List ItemId)) (nid, nit)
            = (insertAL base nid nit, [nid]) := by
          unfold Text.mergeStep
          rw [hnew]
          rfl
        simp only [List.foldl_cons, hstep]
        apply noopFoldAll
        intro e' he'
        have hne' : e'.1 ≠ nid := by
          intro hc
          exact hnd.1 (hc ▸ List.mem_map.mpr ⟨e', he', rfl⟩)
        obtain ⟨m, hm, hdel⟩ := hold e' (List.mem_cons_of_mem _ he') hne'
        refine ⟨m, ?_, hdel⟩
        rw [lookupAL_insertAL]
        rw [if_neg (fun hc => hne' hc.symm)]
        exact hm
      · obtain ⟨m, hm, hdel⟩ := hold e (List.mem_cons_self e tl) he
        have hstep : Text.mergeStep (base, ([] : List ItemId)) e = (base, []) := by
          unfold Text.mergeStep
          rw [hm]
          have hcond : (e.2.deleted && !m.deleted) = false := by
            cases hd : e.2.deleted with
            | true => simp [hdel hd]
            | false => simp
          simp [hcond]
        simp only [List.foldl_cons, hstep]
        have hmem' : (nid, nit) ∈ tl := by
          rcases List.mem_cons.mp hmem with hc | hc
          · exact absurd (congrArg Prod.fst hc.symm) he
          · exact hc
        exact ih hnd.2 (fun e' he' h => hval e' (List.mem_cons_of_mem e he') h)
          (fun e' he' h => hold e' (List.mem_cons_of_mem e he') h) hmem'

/-- `Text::merge` written without its local lets. -/
theorem mergeText_eq (t other : Text) :
    t.mergeText other =
      Text.mergeBlocks (Text.integrateItems
        ⟨t.clientId,
         if other.clock > t.clock then other.clock else t.clock,
         (other.items.foldl Text.mergeStep (t.items, [])).1,
         t.sequence⟩
        (other.items.foldl Text.mergeStep (t.items, [])).2) := rfl

set_option maxHeartbeats 12800000 in
set_option maxRecDepth 65536 in
/-- Exhaustive check over all 120 iteration orders of text1's item store
for text2's catch-up merge followed by its local `insert(5, "B")`. -/
theorem scenario_step2_all_orders :
    ∀ o1 ∈ permsOf textOneBase.items,
      scenarioText2b o1 =
        ⟨2, 6, o1 ++ [(⟨2, 5⟩, ⟨⟨2, 5⟩, ['B'], some ⟨1, 4⟩, none, false⟩)],
         [⟨1, 0⟩, ⟨1, 1⟩, ⟨1, 2⟩, ⟨1, 3⟩, ⟨1, 4⟩, ⟨2, 5⟩]⟩ := by
  decide

set_option maxHeartbeats 12800000 in
set_option maxRecDepth 65536 in
/-- Exhaustive check over all 120 residual orders for the final
re-integration of `text2.merge(text1)`. -/
theorem scenario_final_all_orders :
    ∀ o1 ∈ permsOf textOneBase.items,
      Text.render (Text.mergeBlocks (Text.integrateItems
        ⟨2, 6,
         (o1 ++ [(⟨2, 5⟩, ⟨⟨2, 5⟩, ['B'], some ⟨1, 4⟩, none, false⟩)]) ++
           [(⟨1, 5⟩, ⟨⟨1, 5⟩, ['A'], none, some ⟨1, 0⟩, false⟩)],
         [⟨1, 0⟩, ⟨1, 1⟩, ⟨1, 2⟩, ⟨1, 3⟩, ⟨1, 4⟩, ⟨2, 5⟩]⟩
        [⟨1, 5⟩])) = "AHelloB".toList := by
  decide

/-- C6: scenario S3.  For every iteration order `o1` of text1's item
store during text2's catch-up merge, every order `o2` of text2's store
during `text1.merge(text2)`, and every order `o3` of text1's store
during `text2.merge(text1)`, both replicas render exactly
`"AHelloB"`. -/
theorem c6_text_scenario_s3 (o1 o2 o3 : List (ItemId × Item))
    (h1 : o1.Perm textOneBase.items)
    (h2 : o2.Perm (scenarioText2b o1).items)
    (h3 : o3.Perm (scenarioText1Final o1 o2).items) :
    Text.render (scenarioText1Final o1 o2) = "AHelloB".toList ∧
    Text.render (scenarioText2Final o1 o2 o3) = "AHelloB".toList := by
  have hmem1 : o1 ∈ permsOf textOneBase.items := mem_permsOf_of_perm _ _ h1
  have h2b := scenario_step2_all_orders o1 hmem1
  -- the remote store seen by text1's final merge is a permutation of a
  -- concrete six-entry list
  have hlit : textOneBase.items ++
      [(⟨2, 5⟩, ⟨⟨2, 5⟩, ['B'], some ⟨1, 4⟩, none, false⟩)] =
      [(⟨1, 0⟩, ⟨⟨1, 0⟩, ['H'], none, none, false⟩),
       (⟨1, 1⟩, ⟨⟨1, 1⟩, ['e'], none, none, false⟩),
       (⟨1, 2⟩, ⟨⟨1, 2⟩, ['l'], none, none, false⟩),
       (⟨1, 3⟩, ⟨⟨1, 3⟩, ['l'], none, none, false⟩),
       (⟨1, 4⟩, ⟨⟨1, 4⟩, ['o'], none, none, false⟩),
       (⟨2, 5⟩, ⟨⟨2, 5⟩, ['B'], some ⟨1, 4⟩, none, false⟩)] := by decide
  have hbase' : (o1 ++ [((⟨2, 5⟩ : ItemId),
      (⟨⟨2, 5⟩, ['B'], some ⟨1, 4⟩, none, false⟩ : Item))]).Perm
      [(⟨1, 0⟩, ⟨⟨1, 0⟩, ['H'], none, none, false⟩),
       (⟨1, 1⟩, ⟨⟨1, 1⟩, ['e'], none, none, false⟩),
       (⟨1, 2⟩, ⟨⟨1, 2⟩, ['l'], none, none, false⟩),
       (⟨1, 3⟩, ⟨⟨1, 3⟩, ['l'], none, none, false⟩),
       (⟨1, 4⟩, ⟨⟨1, 4⟩, ['o'], none, none, false⟩),
       (⟨2, 5⟩, ⟨⟨2, 5⟩, ['B'], some ⟨1, 4⟩, none, false⟩)] :=
    hlit ▸ h1.append_right _
  have ho2perm : o2.Perm
      [(⟨1, 0⟩, ⟨⟨1, 0⟩, ['H'], none, none, false⟩),
       (⟨1, 1⟩, ⟨⟨1, 1⟩, ['e'], none, none, false⟩),
       (⟨1, 2⟩, ⟨⟨1, 2⟩, ['l'], none, none, false⟩),
       (⟨1, 3⟩, ⟨⟨1, 3⟩, ['l'], none, none, false⟩),
       (⟨1, 4⟩, ⟨⟨1, 4⟩, ['o'], none, none, false⟩),
       (⟨2, 5⟩, ⟨⟨2, 5⟩, ['B'], some ⟨1, 4⟩, none, false⟩)] := by
    rw [h2b] at h2
    exact h2.trans hbase'
  have hnd2 : (o2.map Prod.fst).Nodup :=
    ((ho2perm.map Prod.fst).nodup_iff).mpr (by decide)
  -- text1.merge(text2): exactly one new item, (2,5)
  have hfold2 : o2.foldl Text.mergeStep (textOneB.items, []) =
      (insertAL textOneB.items ⟨2, 5⟩ ⟨⟨2, 5⟩, ['B'], some ⟨1, 4⟩, none, false⟩,
       [⟨2, 5⟩]) := by
    apply mergeFold_single_new textOneB.items ⟨2, 5⟩
      ⟨⟨2, 5⟩, ['B'], some ⟨1, 4⟩, none, false⟩ (by decide) o2 hnd2
    · intro e he hid
      have hm := ho2perm.mem_iff.mp he
      have hall2 : ∀ e' ∈
          ([(⟨1, 0⟩, ⟨⟨1, 0⟩, ['H'], none, none, false⟩),
            (⟨1, 1⟩, ⟨⟨1, 1⟩, ['e'], none, none, false⟩),
            (⟨1, 2⟩, ⟨⟨1, 2⟩, ['l'], none, none, false⟩),
            (⟨1, 3⟩, ⟨⟨1, 3⟩, ['l'], none, none, false⟩),
            (⟨1, 4⟩, ⟨⟨1, 4⟩, ['o'], none, none, false⟩),
            (⟨2, 5⟩, ⟨⟨2, 5⟩, ['B'], some ⟨1, 4⟩, none, false⟩)] : List (ItemId × Item)),
          e'.1 = (⟨2, 5⟩ : ItemId) →
            e'.2 = (⟨⟨2, 5⟩, ['B'], some ⟨1, 4⟩, none, false⟩ : Item) := by decide
      exact hall2 e hm hid
    · intro e he hne
      have hm := ho2perm.mem_iff.mp he
      simp only [List.mem_cons, List.not_mem_nil, or_false] at hm
      rcases hm with rfl | rfl | rfl | rfl | rfl | rfl
      · exact ⟨⟨⟨1, 0⟩, ['H'], none, none, false⟩, by decide, by decide⟩
      · exact ⟨⟨⟨1, 1⟩, ['e'], none, none, false⟩, by decide, by decide⟩
      · exact ⟨⟨⟨1, 2⟩, ['l'], none, none, false⟩, by decide, by decide⟩
      · exact ⟨⟨⟨1, 3⟩, ['l'], none, none, false⟩, by decide, by decide⟩
      · exact ⟨⟨⟨1, 4⟩, ['o'], none, none, false⟩, by decide, by decide⟩
      · exact absurd rfl hne
    · exact ho2perm.mem_iff.mpr (by decide)
  have hs1 : scenarioText1Final o1 o2 =
      Text.mergeText textOneB ⟨2, 6, o2,
        [⟨1, 0⟩, ⟨1, 1⟩, ⟨1, 2⟩, ⟨1, 3⟩, ⟨1, 4⟩, ⟨2, 5⟩]⟩ := by
    unfold scenarioText1Final
    rw [h2b]
  -- the final text1 state is a concrete value
  have hT1 : scenarioText1Final o1 o2 =
      ⟨1, 6,
       [(⟨1, 0⟩, ⟨⟨1, 0⟩, ['H'], none, none, false⟩),
        (⟨1, 1⟩, ⟨⟨1, 1⟩, ['e'], none, none, false⟩),
        (⟨1, 2⟩, ⟨⟨1, 2⟩, ['l'], none, none, false⟩),
        (⟨1, 3⟩, ⟨⟨1, 3⟩, ['l'], none, none, false⟩),
        (⟨1, 4⟩, ⟨⟨1, 4⟩, ['o'], none, none, false⟩),
        (⟨1, 5⟩, ⟨⟨1, 5⟩, ['A'], none, some ⟨1, 0⟩, false⟩),
        (⟨2, 5⟩, ⟨⟨2, 5⟩, ['B'], some ⟨1, 4⟩, none, false⟩)],
       [⟨1, 5⟩, ⟨1, 0⟩, ⟨1, 1⟩, ⟨1, 2⟩, ⟨1, 3⟩, ⟨1, 4⟩, ⟨2, 5⟩]⟩ := by
    have hclk : (⟨2, 6, o2,
        [⟨1, 0⟩, ⟨1, 1⟩, ⟨1, 2⟩, ⟨1, 3⟩, ⟨1, 4⟩, ⟨2, 5⟩]⟩ : Text).clock = 6 := rfl
    rw [hs1, mergeText_eq, hfold2, hclk]
    decide
  refine ⟨by rw [hT1]; decide, ?_⟩
  -- text2.merge(text1): exactly one new item, (1,5)
  have hndbase : ((o1 ++ [((⟨2, 5⟩ : ItemId),
      (⟨⟨2, 5⟩, ['B'], some ⟨1, 4⟩, none, false⟩ : Item))]).map Prod.fst).Nodup :=
    ((hbase'.map Prod.fst).nodup_iff).mpr (by decide)
  have hlookbase : ∀ k, lookupAL
      (o1 ++ [((⟨2, 5⟩ : ItemId), (⟨⟨2, 5⟩, ['B'], some ⟨1, 4⟩, none, false⟩ : Item))]) k =
      lookupAL
        [((⟨1, 0⟩ : ItemId), (⟨⟨1, 0⟩, ['H'], none, none, false⟩ : Item)),
         (⟨1, 1⟩, ⟨⟨1, 1⟩, ['e'], none, none, false⟩),
         (⟨1, 2⟩, ⟨⟨1, 2⟩, ['l'], none, none, false⟩),
         (⟨1, 3⟩, ⟨⟨1, 3⟩, ['l'], none, none, false⟩),
         (⟨1, 4⟩, ⟨⟨1, 4⟩, ['o'], none, none, false⟩),
         (⟨2, 5⟩, ⟨⟨2, 5⟩, ['B'], some ⟨1, 4⟩, none, false⟩)] k :=
    fun k => lookupAL_perm hndbase hbase' k
  have ho3perm : o3.Perm
      [(⟨1, 0⟩, ⟨⟨1, 0⟩, ['H'], none, none, false⟩),
       (⟨1, 1⟩, ⟨⟨1, 1⟩, ['e'], none, none, false⟩),
       (⟨1, 2⟩, ⟨⟨1, 2⟩, ['l'], none, none, false⟩),
       (⟨1, 3⟩, ⟨⟨1, 3⟩, ['l'], none, none, false⟩),
       (⟨1, 4⟩, ⟨⟨1, 4⟩, ['o'], none, none, false⟩),
       (⟨1, 5⟩, ⟨⟨1, 5⟩, ['A'], none, some ⟨1, 0⟩, false⟩),
       (⟨2, 5⟩, ⟨⟨2, 5⟩, ['B'], some ⟨1, 4⟩, none, false⟩)] := by
    rw [hT1] at h3
    exact h3
  have hnd3 : (o3.map Prod.fst).Nodup :=
    ((ho3perm.map Prod.fst).nodup_iff).mpr (by decide)
  have hnew3 : lookupAL
      (o1 ++ [((⟨2, 5⟩ : ItemId), (⟨⟨2, 5⟩, ['B'], some ⟨1, 4⟩, none, false⟩ : Item))])
      ⟨1, 5⟩ = none := by
    rw [hlookbase]
    decide
  have hfold3 : o3.foldl Text.mergeStep
      (o1 ++ [((⟨2, 5⟩ : ItemId), (⟨⟨2, 5⟩, ['B'], some ⟨1, 4⟩, none, false⟩ : Item))],
       []) =
      (insertAL
        (o1 ++ [((⟨2, 5⟩ : ItemId), (⟨⟨2, 5⟩, ['B'], some ⟨1, 4⟩, none, false⟩ : Item))])
        ⟨1, 5⟩ ⟨⟨1, 5⟩, ['A'], none, some ⟨1, 0⟩, false⟩,
       [⟨1, 5⟩]) := by
    apply mergeFold_single_new _ ⟨1, 5⟩
      ⟨⟨1, 5⟩, ['A'], none, some ⟨1, 0⟩, false⟩ hnew3 o3 hnd3
    · intro e he hid
      have hm := ho3perm.mem_iff.mp he
      have hall3 : ∀ e' ∈
          ([(⟨1, 0⟩, ⟨⟨1, 0⟩, ['H'], none, none, false⟩),
            (⟨1, 1⟩, ⟨⟨1, 1⟩, ['e'], none, none, false⟩),
            (⟨1, 2⟩, ⟨⟨1, 2⟩, ['l'], none, none, false⟩),
            (⟨1, 3⟩, ⟨⟨1, 3⟩, ['l'], none, none, false⟩),
            (⟨1, 4⟩, ⟨⟨1, 4⟩, ['o'], none, none, false⟩),
            (⟨1, 5⟩, ⟨⟨1, 5⟩, ['A'], none, some ⟨1, 0⟩, false⟩),
            (⟨2, 5⟩, ⟨⟨2, 5⟩, ['B'], some ⟨1, 4⟩, none, false⟩)] : List (ItemId × Item)),
          e'.1 = (⟨1, 5⟩ : ItemId) →
            e'.2 = (⟨⟨1, 5⟩, ['A'], none, some ⟨1, 0⟩, false⟩ : Item) := by decide
      exact hall3 e hm hid
    · intro e he hne
      have hm := ho3perm.mem_iff.mp he
      simp only [List.mem_cons, List.not_mem_nil, or_false] at hm
      rcases hm with rfl | rfl | rfl | rfl | rfl | rfl | rfl
      · exact ⟨⟨⟨1, 0⟩, ['H'], none, none, false⟩, by rw [hlookbase]; decide, by decide⟩
      · exact ⟨⟨⟨1, 1⟩, ['e'], none, none, false⟩, by rw [hlookbase]; decide, by decide⟩
      · exact ⟨⟨⟨1, 2⟩, ['l'], none, none, false⟩, by rw [hlookbase]; decide, by decide⟩
      · exact ⟨⟨⟨1, 3⟩, ['l'], none, none, false⟩, by rw [hlookbase]; decide, by decide⟩
      · exact ⟨⟨⟨1, 4⟩, ['o'], none, none, false⟩, by rw [hlookbase]; decide, by decide⟩
      · exact absurd rfl hne
      · exact ⟨⟨⟨2, 5⟩, ['B'], some ⟨1, 4⟩, none, false⟩, by rw [hlookbase]; decide, by decide⟩
    · exact ho3perm.mem_iff.mpr (by decide)
  have hinsert3 : insertAL
      (o1 ++ [((⟨2, 5⟩ : ItemId), (⟨⟨2, 5⟩, ['B'], some ⟨1, 4⟩, none, false⟩ : Item))])
      ⟨1, 5⟩ ⟨⟨1, 5⟩, ['A'], none, some ⟨1, 0⟩, false⟩ =
      (o1 ++ [((⟨2, 5⟩ : ItemId), (⟨⟨2, 5⟩, ['B'], some ⟨1, 4⟩, none, false⟩ : Item))]) ++
        [(⟨1, 5⟩, ⟨⟨1, 5⟩, ['A'], none, some ⟨1, 0⟩, false⟩)] :=
    insertAL_append_of_none _ _ _ hnew3
  have hs2F : scenarioText2Final o1 o2 o3 =
      Text.mergeText
        ⟨2, 6, o1 ++ [(⟨2, 5⟩, ⟨⟨2, 5⟩, ['B'], some ⟨1, 4⟩, none, false⟩)],
         [⟨1, 0⟩, ⟨1, 1⟩, ⟨1, 2⟩, ⟨1, 3⟩, ⟨1, 4⟩, ⟨2, 5⟩]⟩
        ⟨1, 6, o3, [⟨1, 5⟩, ⟨1, 0⟩, ⟨1, 1⟩, ⟨1, 2⟩, ⟨1, 3⟩, ⟨1, 4⟩, ⟨2, 5⟩]⟩ := by
    unfold scenarioText2Final
    rw [h2b, hT1]
  rw [hs2F, mergeText_eq]
  show Text.render (Text.mergeBlocks (Text.integrateItems
      ⟨2, 6,
       (o3.foldl Text.mergeStep
         (o1 ++ [(⟨2, 5⟩, ⟨⟨2, 5⟩, ['B'], some ⟨1, 4⟩, none, false⟩)], [])).1,
       [⟨1, 0⟩, ⟨1, 1⟩, ⟨1, 2⟩, ⟨1, 3⟩, ⟨1, 4⟩, ⟨2, 5⟩]⟩
      (o3.foldl Text.mergeStep
        (o1 ++ [(⟨2, 5⟩, ⟨⟨2, 5⟩, ['B'], some ⟨1, 4⟩, none, false⟩)], [])).2))
    = "AHelloB".toList
  rw [hfold3, hinsert3]
  exact scenario_final_all_orders o1 hmem1

/-- C6 witness: the scenario at the identity iteration orders. -/
theorem c6_witness :
    Text.render (scenarioText1Final textOneBase.items
      (scenarioText2b textOneBase.items).items) = "AHelloB".toList ∧
    Text.render (scenarioText2Final textOneBase.items
      (scenarioText2b textOneBase.items).items
      (scenarioText1Final textOneBase.items
        (scenarioText2b textOneBase.items).items).items) = "AHelloB".toList :=
  c6_text_scenario_s3 _ _ _ (List.Perm.refl _) (List.Perm.refl _) (List.Perm.refl _)

/-- C10 witness: the delta of a one-field document against itself is
empty, and the shared identical path produces no change entry. -/
theorem c10_witness :
    (computeDelta (⟨"d", [("a", ⟨"x", ⟨1, "c"⟩⟩)], ⟨[]⟩⟩ : Document String)
      ⟨"d", [("a", ⟨"x", ⟨1, "c"⟩⟩)], ⟨[]⟩⟩).isEmpty = true ∧
    lookupAL (computeDelta
      (⟨"d", [("a", ⟨"x", ⟨1, "c"⟩⟩)], ⟨[]⟩⟩ : Document String)
      ⟨"d", [("a", ⟨"x", ⟨1, "c"⟩⟩), ("b", ⟨"y", ⟨2, "c"⟩⟩)], ⟨[]⟩⟩).fields "a"
      = none := by
  constructor
  · exact (c10_compute_delta_identity).1 _ (by decide)
  · exact (c10_compute_delta_identity).2
      (⟨"d", [("a", ⟨"x", ⟨1, "c"⟩⟩)], ⟨[]⟩⟩ : Document String)
      ⟨"d", [("a", ⟨"x", ⟨1, "c"⟩⟩), ("b", ⟨"y", ⟨2, "c"⟩⟩)], ⟨[]⟩⟩
      (by decide) "a" ⟨"x", ⟨1, "c"⟩⟩ (by decide) (by decide)

end Synckit
